import Mathlib

/-!
Verification of the rug repository (a git-compatible VCS written in Rust)
against its natural-language specification.  Each Rust data structure and
function relevant to the examined claims is shallowly embedded as an
executable Lean definition; file paths are represented by their list of
`/`-separated components or, where byte-level layout matters, by their
UTF-8 bytes; machine integers are `Nat`/`Int` with explicit truncation.
-/

namespace Rug

/-- A path below the repository root, as its list of `/`-separated
components (`"outer/2.txt"` is `["outer", "2.txt"]`). -/
abbrev RPath := List String

/-- Render a component path the way the Rust code prints `Path::to_str`. -/
def RPath.render (p : RPath) : String :=
  String.intercalate "/" p

/-- Embedding of `Path::ancestors` on the parent of a path, filtered to
drop the root, exactly as `Migration::record_change` and
`index::Entry::parent_dirs` compute it: all proper non-empty prefixes of
the path, shortest first. -/
def RPath.parent_dirs (p : RPath) : List RPath :=
  (List.range (p.length - 1)).map (fun i => p.take (i + 1))

/-- Lookup in an association list, the model of `HashMap`/`BTreeMap` get. -/
def alookup {α β : Type} [DecidableEq α] (k : α) : List (α × β) → Option β
  | [] => none
  | (a, b) :: rest => if a = k then some b else alookup k rest

/-- Insertion into an association list keyed by the first component,
replacing any previous binding: the model of `HashMap::insert` /
`BTreeMap::insert` (key order is irrelevant to the claims that use it). -/
def ainsert {α β : Type} [DecidableEq α] (k : α) (v : β) : List (α × β) → List (α × β)
  | [] => [(k, v)]
  | (a, b) :: rest => if a = k then (k, v) :: rest else (a, b) :: ainsert k v rest

/-- Removal from an association list: the model of map `remove`. -/
def aerase {α β : Type} [DecidableEq α] (k : α) : List (α × β) → List (α × β)
  | [] => []
  | (a, b) :: rest => if a = k then rest else (a, b) :: aerase k rest

/-- Set-like insertion into a list: the model of `HashSet::insert` /
`BTreeSet::insert`. -/
def sinsert {α : Type} [DecidableEq α] (x : α) (l : List α) : List α :=
  if x ∈ l then l else l ++ [x]

end Rug

namespace Rug.Migrate

/-- Embedding of `database::Entry` as it appears in a tree diff leaf:
only its object id and mode are consumed by the migration. -/
structure TreeEntry where
  oid : String
  mode : Nat
deriving DecidableEq, Repr

/-- Embedding of `repository::migration::ConflictType`. -/
inductive ConflictType where
  | StaleFile
  | StaleDirectory
  | UntrackedOverwritten
  | UntrackedRemoved
deriving DecidableEq, Repr

/-- Embedding of `repository::migration::Action`. -/
inductive Action where
  | Create
  | Delete
  | Update
deriving DecidableEq, Repr

/-- Embedding of the `MESSAGES` table of `repository/migration.rs`,
header and footer per conflict kind, verbatim from the source. -/
def MESSAGES : ConflictType → String × String
  | .StaleFile =>
    ("Your local changes to the following files would be overwritten by checkout:",
     "Please commit your changes to stash them before you switch branches")
  | .StaleDirectory =>
    ("Updating the following directories would lose untracekdd files in them:",
     "\n")
  | .UntrackedOverwritten =>
    ("The following untracked working tree files would be overwritten by checkout:",
     "Please move or remove them before you switch branches")
  | .UntrackedRemoved =>
    ("The following untracked working tree files would be removed by checkout:",
     "Please commit your changes to stash them before you switch branches")

/-- An index entry as the migration touches it (`Index::add` stores the
object id and mode for the path; the stat fields play no role here). -/
structure IdxEntry where
  oid : String
  mode : Nat
deriving DecidableEq, Repr

/-- The parts of `Repository` that `Migration::apply_changes` can mutate:
the index entries, the workspace files (a flat map from path to blob
bytes, directories implicit), and the HEAD ref that `checkout` updates
after a successful migration. -/
structure Repository where
  index : List (RPath × IdxEntry)
  workspace : List (RPath × List Nat)
  head : String
deriving DecidableEq, Repr

/-- Embedding of the mutable state of `struct Migration`: the planned
change lists, the directory sets and the conflict classes. -/
structure Migration where
  changes_create : List (RPath × Option TreeEntry)
  changes_delete : List (RPath × Option TreeEntry)
  changes_update : List (RPath × Option TreeEntry)
  mkdirs : List RPath
  rmdirs : List RPath
  stale_file : List RPath
  stale_directory : List RPath
  untracked_overwritten : List RPath
  untracked_removed : List RPath
deriving DecidableEq, Repr

/-- Embedding of `Migration::new`: empty change lists and conflict sets. -/
def Migration.new : Migration :=
  ⟨[], [], [], [], [], [], [], [], []⟩

/-- Embedding of `Migration::insert_conflict`. -/
def insert_conflict (m : Migration) (c : ConflictType) (p : RPath) : Migration :=
  match c with
  | .StaleFile => { m with stale_file := sinsert p m.stale_file }
  | .StaleDirectory => { m with stale_directory := sinsert p m.stale_directory }
  | .UntrackedOverwritten =>
      { m with untracked_overwritten := sinsert p m.untracked_overwritten }
  | .UntrackedRemoved => { m with untracked_removed := sinsert p m.untracked_removed }

/-- The conflict set of a class, as `collect_errors` reads it. -/
def Migration.conflicts (m : Migration) : ConflictType → List RPath
  | .StaleFile => m.stale_file
  | .StaleDirectory => m.stale_directory
  | .UntrackedOverwritten => m.untracked_overwritten
  | .UntrackedRemoved => m.untracked_removed

/-- Embedding of `Migration::record_change`: classify the diff pair into
`Create`/`Delete`/`Update`, accumulate the ancestor directories into
`mkdirs`/`rmdirs`, and push the change onto the matching list. -/
def record_change (m : Migration) (p : RPath)
    (old_item new_item : Option TreeEntry) : Migration :=
  let anc := p.parent_dirs
  if old_item.isNone then
    { m with mkdirs := anc.foldl (fun s d => sinsert d s) m.mkdirs,
             changes_create := m.changes_create ++ [(p, new_item)] }
  else if new_item.isNone then
    { m with rmdirs := anc.foldl (fun s d => sinsert d s) m.rmdirs,
             changes_delete := m.changes_delete ++ [(p, new_item)] }
  else
    { m with mkdirs := anc.foldl (fun s d => sinsert d s) m.mkdirs,
             changes_update := m.changes_update ++ [(p, new_item)] }

/-- Abstraction of `Migration::check_for_conflict`.  Its helpers
`Repository::compare_tree_to_index` and `compare_index_to_workspace` are
declared by callers in the sources but their definitions are not among
the source files, so the classification a diff entry receives is kept
abstract: a checker returns the `(class, path)` conflicts it records for
one diff entry, which covers every behaviour of the source function. -/
def Checker : Type :=
  Repository → RPath → Option TreeEntry → Option TreeEntry → List (ConflictType × RPath)

/-- Embedding of `Migration::plan_changes`: for each diff entry, record
its conflicts and its planned change. -/
def plan_changes (check : Checker) (repo : Repository)
    (diff : List (RPath × (Option TreeEntry × Option TreeEntry))) : Migration :=
  diff.foldl
    (fun m e =>
      let m' := (check repo e.1 e.2.1 e.2.2).foldl
        (fun acc cp => insert_conflict acc cp.1 cp.2) m
      record_change m' e.1 e.2.1 e.2.2)
    Migration.new

/-- Embedding of the body of `Migration::collect_errors` for one conflict
class: header line, one tab-indented line per path, footer, and a final
newline element, joined with newlines. -/
def class_error (m : Migration) (c : ConflictType) : List String :=
  if (m.conflicts c).isEmpty then []
  else
    let hf := MESSAGES c
    [String.intercalate "\n"
      ([hf.1] ++ (m.conflicts c).map (fun p => "\t" ++ p.render) ++ [hf.2, "\n"])]

/-- Embedding of `Migration::collect_errors`.  The Rust code iterates a
`HashMap` whose order is unspecified; the model fixes the insertion
order used by `Migration::new`. -/
def collect_errors (m : Migration) : List String :=
  class_error m .StaleFile ++ class_error m .StaleDirectory ++
  class_error m .UntrackedOverwritten ++ class_error m .UntrackedRemoved

/-- Embedding of `Workspace::apply_migration` over the flat workspace
model: deletions remove files, `rmdirs`/`mkdirs` only affect implicit
directories, updates and creates write the blob bytes fetched from the
database by the entry's object id. -/
def apply_migration (db : String → List Nat) (ws : List (RPath × List Nat))
    (m : Migration) : List (RPath × List Nat) :=
  let afterDelete := m.changes_delete.foldl (fun w c => aerase c.1 w) ws
  let afterUpdate := m.changes_update.foldl
    (fun w c => match c.2 with
      | some e => ainsert c.1 (db e.oid) w
      | none => w) afterDelete
  m.changes_create.foldl
    (fun w c => match c.2 with
      | some e => ainsert c.1 (db e.oid) w
      | none => w) afterUpdate

/-- Embedding of `Migration::update_workspace`. -/
def update_workspace (db : String → List Nat) (repo : Repository)
    (m : Migration) : Repository :=
  { repo with workspace := apply_migration db repo.workspace m }

/-- Embedding of `Migration::update_index`: remove every deleted path,
then `Index::add` each created or updated path with the tree entry's
object id and mode. -/
def update_index (repo : Repository) (m : Migration) : Repository :=
  let afterDelete := m.changes_delete.foldl (fun ix c => aerase c.1 ix) repo.index
  let ix := (m.changes_create ++ m.changes_update).foldl
    (fun ix c => match c.2 with
      | some e => ainsert c.1 ⟨e.oid, e.mode⟩ ix
      | none => ix) afterDelete
  { repo with index := ix }

/-- Embedding of `Migration::apply_changes`: plan the changes, fail with
the joined grouped diagnostics if any conflict was recorded, otherwise
update the workspace and then the index. -/
def apply_changes (check : Checker) (db : String → List Nat)
    (diff : List (RPath × (Option TreeEntry × Option TreeEntry)))
    (repo : Repository) : Except String Repository :=
  let m := plan_changes check repo diff
  let errors := collect_errors m
  if errors.isEmpty then
    .ok (update_index (update_workspace db repo m) m)
  else
    .error (String.intercalate "\n" errors)

/-- Embedding of the tail of `Checkout::run`: apply the migration and, on
success, update HEAD to the target; on failure return the error with the
repository untouched. -/
def checkout_finish (check : Checker) (db : String → List Nat)
    (diff : List (RPath × (Option TreeEntry × Option TreeEntry)))
    (target_oid : String) (repo : Repository) : Option String × Repository :=
  match apply_changes check db diff repo with
  | .error e => (some e, repo)
  | .ok r => (none, { r with head := target_oid })

end Rug.Migrate

namespace Rug.Refs

/-- The git directory contents as a flat map from git-dir-relative path to
file text: the state that `Refs` and `Lockfile` read and write. -/
abbrev Fs := List (String × String)

/-- The last index at which a character occurs in a list. -/
def lastIdxOf (c : Char) (l : List Char) : Option Nat :=
  ((l.enum.filter (fun ic => ic.2 = c)).map (fun ic => ic.1)).getLast?

/-- Embedding of `Lockfile::new`'s `path.with_extension("lock")`: replace
the extension of the final path component (the portion after its last
dot, a leading dot not counting) with `lock`. -/
def lock_path (p : String) : String :=
  let cs := p.toList
  let cut := match lastIdxOf '/' cs with
    | some i => i + 1
    | none => 0
  let dir := cs.take cut
  let name := cs.drop cut
  let stem :=
    match ((name.enum.filter (fun ic => 0 < ic.1 ∧ ic.2 = '.')).map
        (fun ic => ic.1)).getLast? with
    | some i => name.take i
    | none => name
  String.mk (dir ++ stem ++ ['.', 'l', 'o', 'c', 'k'])

/-- Errors surfaced by the lockfile layer; acquiring a held lock is the
`AlreadyExists` kind. -/
inductive RefErr where
  | alreadyExists
deriving DecidableEq, Repr

/-- Embedding of `Lockfile::hold_for_update`: exclusive creation of the
sibling `.lock` file, failing if it already exists. -/
def hold_for_update (fs : Fs) (path : String) : Except RefErr Fs :=
  if (alookup (lock_path path) fs).isSome then .error .alreadyExists
  else .ok (ainsert (lock_path path) "" fs)

/-- Embedding of `Lockfile::write`: append to the held lock file. -/
def lf_write (fs : Fs) (lockp : String) (data : String) : Fs :=
  ainsert lockp (((alookup lockp fs).getD "") ++ data) fs

/-- Embedding of `Lockfile::commit`: rename the lock file over the target
path, releasing the lock. -/
def lf_commit (fs : Fs) (path lockp : String) : Fs :=
  ainsert path ((alookup lockp fs).getD "") (aerase lockp fs)

/-- Embedding of `Refs::write_lockfile`: write the oid and a newline into
the held lock, then commit it. -/
def write_lockfile (fs : Fs) (path oid : String) : Fs :=
  lf_commit (lf_write (lf_write fs (lock_path path) oid) (lock_path path) "\n")
    path (lock_path path)

/-- Embedding of `refs::Ref`. -/
inductive Ref where
  | Ref (oid : String)
  | SymRef (path : String)
deriving DecidableEq, Repr

/-- Whitespace for the model of `str::trim` (the characters that occur in
ref files). -/
def isWs (c : Char) : Bool :=
  c = ' ' || c = '\n' || c = '\t' || c = '\r'

/-- Model of `str::trim`: drop leading and trailing whitespace. -/
def trimStr (s : String) : String :=
  String.mk (((s.toList.dropWhile isWs).reverse.dropWhile isWs).reverse)

/-- Embedding of `Refs::read_oid_or_symref`: read and trim the file, a
`ref: ` prefix with a non-empty remainder makes it symbolic. -/
def read_oid_or_symref (fs : Fs) (path : String) : Option Ref :=
  (alookup path fs).map (fun contents =>
    let t := (trimStr contents).toList
    if t.take 5 = "ref: ".toList ∧ t.drop 5 ≠ [] then Ref.SymRef (String.mk (t.drop 5))
    else Ref.Ref (String.mk t))

/-- Embedding of `Refs::update_symref`: acquire the lock on `path`; if the
file is absent or holds a direct oid, write through the lock and commit;
if it is symbolic, recurse on the target -- without releasing the lock
just acquired, exactly as the source does.  The fuel bounds the symref
chain; `none` means the chain was longer than the fuel. -/
def update_symref : Nat → Fs → String → String → Option (Except RefErr Fs)
  | 0, _, _, _ => none
  | fuel + 1, fs, path, oid =>
    match hold_for_update fs path with
    | .error e => some (.error e)
    | .ok fs1 =>
      match read_oid_or_symref fs1 path with
      | none => some (.ok (write_lockfile fs1 path oid))
      | some (.Ref _) => some (.ok (write_lockfile fs1 path oid))
      | some (.SymRef p) => update_symref fuel fs1 p oid

/-- Embedding of `Refs::update_head`. -/
def update_head (fs : Fs) (oid : String) : Option (Except RefErr Fs) :=
  update_symref (fs.length + 1) fs "HEAD" oid

end Rug.Refs

namespace Rug

/-- Lowercase hex digit for a value below 16 (`{:02x}` formatting). -/
def hexCharOf (n : Nat) : Char :=
  match n with
  | 0 => '0' | 1 => '1' | 2 => '2' | 3 => '3' | 4 => '4'
  | 5 => '5' | 6 => '6' | 7 => '7' | 8 => '8' | 9 => '9'
  | 10 => 'a' | 11 => 'b' | 12 => 'c' | 13 => 'd' | 14 => 'e'
  | _ => 'f'

/-- Value of a hex digit as `u8::from_str_radix(.., 16)` accepts it:
decimal digits, then lowercase and uppercase letters up to `f`. -/
def hexValOf (c : Char) : Option Nat :=
  if '0' ≤ c ∧ c ≤ '9' then some (c.toNat - 48)
  else if 'a' ≤ c ∧ c ≤ 'f' then some (c.toNat - 87)
  else if 'A' ≤ c ∧ c ≤ 'F' then some (c.toNat - 55)
  else none

/-- Embedding of `util::encode_hex` (the sources use it to turn 20 raw
bytes into a 40-char lowercase hex oid, the form §3 of the spec fixes). -/
def encode_hex (bs : List Nat) : String :=
  String.mk (bs.flatMap (fun b => [hexCharOf (b / 16 % 16), hexCharOf (b % 16)]))

/-- Embedding of `decode_hex`: consume the characters two at a time,
failing on a non-hex digit or an odd length. -/
def decode_hex_chars : List Char → Option (List Nat)
  | [] => some []
  | a :: b :: rest =>
    match hexValOf a, hexValOf b with
    | some x, some y => (decode_hex_chars rest).map (fun l => (16 * x + y) :: l)
    | _, _ => none
  | [_] => none

/-- Embedding of `util::decode_hex` on a string. -/
def decode_hex (s : String) : Option (List Nat) :=
  decode_hex_chars s.toList

/-- Total variant used where the source unwraps (`expect("invalid oid")`):
the panic case is mapped to the empty list. -/
def decode_hex_d (s : String) : List Nat :=
  (decode_hex s).getD []

/-- Whether a byte is a UTF-8 continuation byte. -/
def isCont (b : Nat) : Bool :=
  128 ≤ b && b ≤ 191

/-- UTF-8 validity of a byte sequence, the check `read_to_string` and
`str::from_utf8` perform (rejecting overlongs, surrogates and values
above `U+10FFFF`). -/
def validUtf8 : List Nat → Bool
  | [] => true
  | b :: rest =>
    if b < 128 then validUtf8 rest
    else if b < 194 then false
    else if b < 224 then
      match rest with
      | c1 :: r => isCont c1 && validUtf8 r
      | [] => false
    else if b < 240 then
      match rest with
      | c1 :: c2 :: r =>
        (max 128 (if b = 224 then 160 else 128) ≤ c1
          && c1 ≤ (if b = 237 then 159 else 191))
          && isCont c2 && validUtf8 r
      | _ => false
    else if b < 245 then
      match rest with
      | c1 :: c2 :: c3 :: r =>
        ((if b = 240 then 144 else 128) ≤ c1
          && c1 ≤ (if b = 244 then 143 else 191))
          && isCont c2 && isCont c3 && validUtf8 r
      | _ => false
    else false

end Rug

namespace Rug.Index

/-- Embedding of `index::Entry`.  Timestamps are `i64`, `dev`/`ino`/`size`
are `u64`, the rest are 32/16-bit; `path` holds the UTF-8 bytes of the
Rust `String`. -/
structure Entry where
  ctime : Int
  ctime_nsec : Int
  mtime : Int
  mtime_nsec : Int
  dev : Nat
  ino : Nat
  uid : Nat
  gid : Nat
  size : Nat
  flags : Nat
  mode : Nat
  oid : String
  path : List Nat
deriving DecidableEq, Repr

/-- The fields of `fs::Metadata` the index reads (`MetadataExt`). -/
structure Stat where
  ctime : Int
  ctime_nsec : Int
  mtime : Int
  mtime_nsec : Int
  dev : Nat
  ino : Nat
  mode : Nat
  uid : Nat
  gid : Nat
  size : Nat
deriving DecidableEq, Repr

/-- Embedding of `Entry::is_executable`. -/
def is_executable (mode : Nat) : Bool :=
  (mode >>> 6) &&& 1 = 1

/-- Embedding of the static `Entry::mode`: regular or executable file. -/
def mode_of (mode : Nat) : Nat :=
  if is_executable mode then 0o100755 else 0o100644

/-- Embedding of `Entry::new`: build an entry from a path, an oid and the
file's metadata; `flags` is the path length as `u16`, clamped to `0xfff`. -/
def Entry.new (pathname : List Nat) (oid : String) (metadata : Stat) : Entry where
  ctime := metadata.ctime
  ctime_nsec := metadata.ctime_nsec
  mtime := metadata.mtime
  mtime_nsec := metadata.mtime_nsec
  dev := metadata.dev
  ino := metadata.ino
  uid := metadata.uid
  gid := metadata.gid
  size := metadata.size
  flags := min (pathname.length % 65536) 0xfff
  mode := mode_of metadata.mode
  oid := oid
  path := pathname

/-- Embedding of `Entry::stat_match`. -/
def Entry.stat_match (e : Entry) (stat : Stat) : Bool :=
  (e.mode = mode_of stat.mode) && (e.size = 0 || e.size = stat.size)

/-- Embedding of `Entry::times_match`. -/
def Entry.times_match (e : Entry) (stat : Stat) : Bool :=
  (e.ctime = stat.ctime) && (e.ctime_nsec = stat.ctime_nsec)
    && (e.mtime = stat.mtime) && (e.mtime_nsec = stat.mtime_nsec)

/-- Embedding of `Entry::update_stat`: refresh every stat field. -/
def Entry.update_stat (e : Entry) (stat : Stat) : Entry :=
  { e with ctime := stat.ctime, ctime_nsec := stat.ctime_nsec,
           mtime := stat.mtime, mtime_nsec := stat.mtime_nsec,
           dev := stat.dev, ino := stat.ino, mode := mode_of stat.mode,
           uid := stat.uid, gid := stat.gid, size := stat.size }

/-- Truncation performed by Rust's `as u32` on an `i64`. -/
def intAsU32 (i : Int) : Nat :=
  (i.emod 4294967296).toNat

/-- Truncation performed by Rust's `as u32` on a `u64`. -/
def natAsU32 (n : Nat) : Nat :=
  n % 4294967296

/-- Big-endian bytes of a `u32` value (`to_be_bytes`). -/
def u32be (n : Nat) : List Nat :=
  [n / 16777216 % 256, n / 65536 % 256, n / 256 % 256, n % 256]

/-- Big-endian bytes of a `u16` value (`to_be_bytes`). -/
def u16be (n : Nat) : List Nat :=
  [n / 256 % 256, n % 256]

/-- Big-endian value of a byte list (`from_be_bytes`). -/
def beVal (l : List Nat) : Nat :=
  l.foldl (fun a b => a * 256 + b) 0

/-- The ten metadata values `to_bytes` serializes, already truncated by
`as u32`. -/
def Entry.meta_vals (e : Entry) : List Nat :=
  [intAsU32 e.ctime, intAsU32 e.ctime_nsec, intAsU32 e.mtime, intAsU32 e.mtime_nsec,
   natAsU32 e.dev, natAsU32 e.ino, natAsU32 e.mode, natAsU32 e.uid,
   natAsU32 e.gid, natAsU32 e.size]

/-- The `while bytes.len() % 8 != 0 push 0` padding loop of `to_bytes`. -/
def pad8 (l : List Nat) : List Nat :=
  l ++ List.replicate ((8 - l.length % 8) % 8) 0

/-- Embedding of `Entry::to_bytes`: ten big-endian 32-bit fields (the
64-bit in-memory values truncated by `as u32`), the 20 oid bytes, the
16-bit flags, the NUL-terminated path, zero-padded to a multiple of 8. -/
def Entry.to_bytes (e : Entry) : List Nat :=
  pad8 (e.meta_vals.flatMap u32be ++ decode_hex_d e.oid
    ++ u16be (e.flags % 65536) ++ e.path ++ [0])

/-- Embedding of `Entry::parse`: ten 32-bit metadata fields widened
back, the oid re-encoded as hex, the flags, and the path up to its NUL
terminator (`str::from_utf8` makes invalid UTF-8 fatal, here `none`). -/
def Entry.parse (bytes : List Nat) : Option Entry :=
  let int := fun (i : Nat) => beVal ((bytes.drop (4 * i)).take 4)
  let path_bytes := (bytes.drop 62).takeWhile (fun b => b ≠ 0)
  if validUtf8 path_bytes then
    some { ctime := Int.ofNat (int 0), ctime_nsec := Int.ofNat (int 1),
           mtime := Int.ofNat (int 2), mtime_nsec := Int.ofNat (int 3),
           dev := int 4, ino := int 5, mode := int 6, uid := int 7,
           gid := int 8, size := int 9,
           oid := encode_hex ((bytes.drop 40).take 20),
           flags := beVal ((bytes.drop 60).take 2),
           path := path_bytes }
  else none

/-- Embedding of `Index::write_updates` as the byte stream it sends
through the `Checksum` writer: the `DIRC` header with version 2 and the
entry count, each entry's bytes in map order, then the SHA-1 digest of
everything written, computed by the supplied digest function. -/
def write_updates (sha1 : List Nat → List Nat) (entries : List Entry) : List Nat :=
  let header := [68, 73, 82, 67] ++ u32be 2 ++ u32be (natAsU32 entries.length)
  let body := header ++ entries.flatMap Entry.to_bytes
  body ++ sha1 body

/-- The extension loop of `Index::read_entries`: while the last byte read
is not NUL, read 8 more bytes; the fuel dominates the stream length. -/
def read_entry_ext : List Nat → List Nat → Nat → Option (List Nat × List Nat)
  | _, _, 0 => none
  | acc, stream, fuel + 1 =>
    if acc.getLast? = some 0 then some (acc, stream)
    else if 8 ≤ stream.length then
      read_entry_ext (acc ++ stream.take 8) (stream.drop 8) fuel
    else none

/-- One entry read of `Index::read_entries`: 64 bytes, then 8-byte
extensions until the NUL terminator is included. -/
def read_entry (stream : List Nat) : Option (List Nat × List Nat) :=
  if 64 ≤ stream.length then
    read_entry_ext (stream.take 64) (stream.drop 64) (stream.length + 1)
  else none

/-- Embedding of the loop of `Index::read_entries`: `count` entries, also
returning the bytes consumed (they feed the running checksum). -/
def read_entries : Nat → List Nat → Option (List Entry × List Nat × List Nat)
  | 0, stream => some ([], [], stream)
  | n + 1, stream =>
    match read_entry stream with
    | none => none
    | some (raw, rest) =>
      match Entry.parse raw with
      | none => none
      | some e =>
        match read_entries n rest with
        | none => none
        | some (es, consumed, rest') => some (e :: es, raw ++ consumed, rest')

/-- Embedding of `Index::load` on a byte stream: check the `DIRC` header
and version, read `count` entries, and verify that the next 20 bytes
equal the digest of everything read before them.  Returns the parsed
entries in file order. -/
def load (sha1 : List Nat → List Nat) (file : List Nat) : Option (List Entry) :=
  if 12 ≤ file.length ∧ file.take 4 = [68, 73, 82, 67]
      ∧ beVal ((file.drop 4).take 4) = 2 then
    match read_entries (beVal ((file.drop 8).take 4)) (file.drop 12) with
    | none => none
    | some (es, consumed, rest) =>
      if 20 ≤ rest.length ∧ rest.take 20 = sha1 (file.take 12 ++ consumed) then
        some es
      else none
  else none

/-- Byte-wise lexicographic order, the `Ord` of Rust `String` keys in the
entries `BTreeMap`. -/
def keyLt : List Nat → List Nat → Bool
  | [], [] => false
  | [], _ :: _ => true
  | _ :: _, [] => false
  | a :: as, b :: bs => if a < b then true else if b < a then false else keyLt as bs

/-- Embedding of `Index::store_entry` on the sorted entries map: insert
by path, replacing an entry with the same path. -/
def store_entry (e : Entry) : List Entry → List Entry
  | [] => [e]
  | x :: xs =>
    if keyLt e.path x.path then e :: x :: xs
    else if e.path = x.path then e :: xs
    else x :: store_entry e xs

/-- The entries map after `Index::load`: each parsed entry is added via
`store_entry` into the fresh map. -/
def load_index (sha1 : List Nat → List Nat) (file : List Nat) : Option (List Entry) :=
  (load sha1 file).map (fun es => es.foldl (fun m e => store_entry e m) [])

/-- The entries the program itself builds: timestamps and sizes that fit
their on-disk 32-bit fields, a normalized 40-hex oid, and a non-empty
NUL-free valid-UTF-8 path. -/
def EntryWF (e : Entry) : Prop :=
  0 ≤ e.ctime ∧ e.ctime < 4294967296
  ∧ 0 ≤ e.ctime_nsec ∧ e.ctime_nsec < 4294967296
  ∧ 0 ≤ e.mtime ∧ e.mtime < 4294967296
  ∧ 0 ≤ e.mtime_nsec ∧ e.mtime_nsec < 4294967296
  ∧ e.dev < 4294967296 ∧ e.ino < 4294967296 ∧ e.mode < 4294967296
  ∧ e.uid < 4294967296 ∧ e.gid < 4294967296 ∧ e.size < 4294967296
  ∧ e.flags < 65536
  ∧ ((decode_hex e.oid).getD []).length = 20
  ∧ encode_hex ((decode_hex e.oid).getD []) = e.oid
  ∧ (∀ b ∈ e.path, b ≠ 0)
  ∧ validUtf8 e.path = true

instance (e : Entry) : Decidable (EntryWF e) := by
  unfold EntryWF
  infer_instance

end Rug.Index

namespace Rug.IndexAdd

/-- The `Index` state that `add` manipulates: the set of entry paths (the
keys of the entries map; the claim concerns only paths) and the
`parents` map from a directory to the entry paths lying beneath it.
Paths are component lists. -/
structure IndexState where
  entries : List RPath
  parents : List (RPath × List RPath)
deriving DecidableEq, Repr

/-- Embedding of `Index::store_entry`: record the path in the entries map
and register it under each of its parent directories. -/
def store_entry (st : IndexState) (p : RPath) : IndexState where
  entries := if p ∈ st.entries then st.entries else st.entries ++ [p]
  parents := p.parent_dirs.foldl
    (fun ps d =>
      match alookup d ps with
      | some s => ainsert d (sinsert p s) ps
      | none => ainsert d [p] ps)
    st.parents

/-- Embedding of `Index::remove_entry`: if the path is present, drop it
from the entries map and from each parent directory's children set,
removing sets that become empty. -/
def remove_entry (st : IndexState) (p : RPath) : IndexState :=
  if p ∈ st.entries then
    { entries := st.entries.erase p,
      parents := p.parent_dirs.foldl
        (fun ps d =>
          match alookup d ps with
          | some s =>
            let s' := s.erase p
            if s' = [] then aerase d ps else ainsert d s' ps
          | none => ps)
        st.parents }
  else st

/-- Embedding of `Index::discard_conflicts`: remove every entry that is a
parent directory of the new path, then every entry listed as a child of
the new path in the `parents` map. -/
def discard_conflicts (st : IndexState) (p : RPath) : IndexState :=
  let st1 := p.parent_dirs.foldl remove_entry st
  ((alookup p st1.parents).getD []).foldl remove_entry st1

/-- Embedding of `Index::add` restricted to paths (the entry built from
the oid and stat does not influence the conflict handling). -/
def add (st : IndexState) (p : RPath) : IndexState :=
  store_entry (discard_conflicts st p) p

/-- The empty index. -/
def emptyIndex : IndexState :=
  ⟨[], []⟩

/-- Path `a` is a strict ancestor directory of path `b`. -/
def strictAncestor (a b : RPath) : Prop :=
  a ∈ b.parent_dirs

instance (a b : RPath) : Decidable (strictAncestor a b) := by
  unfold strictAncestor; infer_instance

/-- The parents map is exact: a path is listed under a directory iff it
is an entry and the directory is a strict ancestor of it. -/
def parentsExact (st : IndexState) : Prop :=
  ∀ d q, q ∈ (alookup d st.parents).getD [] ↔ (q ∈ st.entries ∧ strictAncestor d q)

/-- Invariant I3: no entry path is a strict ancestor of another. -/
def noNesting (st : IndexState) : Prop :=
  ∀ p q, p ∈ st.entries → q ∈ st.entries → ¬ strictAncestor p q

/-- The full well-formedness of an index state, as the empty index and
every state this code produces satisfy it: duplicate-free entries, a
duplicate-free parents map with duplicate-free children sets, the exact
parents index, and I3. -/
def Inv (st : IndexState) : Prop :=
  st.entries.Nodup
  ∧ (st.parents.map Prod.fst).Nodup
  ∧ (∀ d, ((alookup d st.parents).getD []).Nodup)
  ∧ parentsExact st
  ∧ noNesting st

end Rug.IndexAdd

namespace Rug.Status

/-- Embedding of `ChangeType` of `commands/status.rs`. -/
inductive ChangeType where
  | Added
  | Modified
  | Deleted
deriving DecidableEq, Repr

/-- Embedding of `ChangeKind` of `commands/status.rs`. -/
inductive ChangeKind where
  | Workspace
  | Index
deriving DecidableEq, Repr

/-- A HEAD-tree leaf as `Status` consults it (`TreeEntry::mode` and oid). -/
structure HeadEntry where
  oid : String
  mode : Nat
deriving DecidableEq, Repr

/-- The state `Status` threads while checking index entries: the index
(entries map keyed by path bytes, plus its `changed` flag), the stat map
collected by the workspace scan, the HEAD tree, and the recorded
changes. -/
structure StatusState where
  entries : List (List Nat × Rug.Index.Entry)
  changed : Bool
  stats : List (List Nat × Rug.Index.Stat)
  head_tree : List (List Nat × HeadEntry)
  changed_paths : List (List Nat)
  workspace_changes : List (List Nat × ChangeType)
  index_changes : List (List Nat × ChangeType)
deriving DecidableEq, Repr

/-- Embedding of `Status::record_change`. -/
def record_change (st : StatusState) (path : List Nat)
    (kind : ChangeKind) (ty : ChangeType) : StatusState :=
  let st := { st with changed_paths := sinsert path st.changed_paths }
  match kind with
  | .Index => { st with index_changes := ainsert path ty st.index_changes }
  | .Workspace => { st with workspace_changes := ainsert path ty st.workspace_changes }

/-- Embedding of `Status::check_index_against_workspace`.  The `entry`
argument is the clone made in `check_index_entries`; on the hash-match
branch `Index::update_entry_stat` refreshes that clone and sets the
index's `changed` flag (the entries map itself holds the original).
`ws_read` models `Workspace::read_file` (a failed read panics in the
source and is the empty default here), `blob_oid` the oid of a blob
built from the data. -/
def check_index_against_workspace (ws_read : List Nat → Option (List Nat))
    (blob_oid : List Nat → String) (st : StatusState)
    (entry : Rug.Index.Entry) : StatusState × Rug.Index.Entry :=
  match alookup entry.path st.stats with
  | some stat =>
    if ¬ entry.stat_match stat then
      (record_change st entry.path .Workspace .Modified, entry)
    else if entry.times_match stat then (st, entry)
    else
      let data := (ws_read entry.path).getD []
      let oid := blob_oid data
      if entry.oid = oid then
        ({ st with changed := true }, entry.update_stat stat)
      else (record_change st entry.path .Workspace .Modified, entry)
  | none => (record_change st entry.path .Workspace .Deleted, entry)

/-- Embedding of `Status::check_index_against_head_tree`. -/
def check_index_against_head_tree (st : StatusState)
    (entry : Rug.Index.Entry) : StatusState :=
  match alookup entry.path st.head_tree with
  | some item =>
    if ¬ (item.mode = entry.mode ∧ item.oid = entry.oid) then
      record_change st entry.path .Index .Modified
    else st
  | none => record_change st entry.path .Index .Added

/-- Embedding of `Status::check_index_entries`: clone the entries out of
the index map, then run both checks on each clone. -/
def check_index_entries (ws_read : List Nat → Option (List Nat))
    (blob_oid : List Nat → String) (st : StatusState) : StatusState :=
  (st.entries.map (fun kv => kv.2)).foldl
    (fun s e =>
      let r := check_index_against_workspace ws_read blob_oid s e
      check_index_against_head_tree r.1 r.2)
    st

end Rug.Status

namespace Rug.Tree

/-- Embedding of `database::Entry`: a flat index entry fed to the tree
builder. -/
structure DbEntry where
  name : String
  oid : String
  mode : Nat
deriving DecidableEq, Repr

/-- Embedding of `database::tree::TreeEntry` and `Tree` as one inductive:
a leaf entry or a subtree whose children, like the source `BTreeMap`, are
kept as a name-sorted association list. -/
inductive TreeX where
  | file (e : DbEntry)
  | node (children : List (String × TreeX))

/-- Embedding of the instance `Entry::mode`: `TREE_MODE` stays, otherwise
executable or regular. -/
def entry_mode (e : DbEntry) : Nat :=
  if e.mode = 0o40000 then 0o40000
  else if (e.mode >>> 6) &&& 1 = 1 then 0o100755 else 0o100644

/-- Embedding of `TreeEntry::mode`: leaf entries report their normalized
mode, trees report `TREE_MODE`. -/
def te_mode : TreeX → Nat
  | .file e => entry_mode e
  | .node _ => 0o40000

/-- Byte-wise order on strings, the `Ord` Rust uses for `BTreeMap<String>`
keys and for sorting entries. -/
def strLt (a b : String) : Bool :=
  Rug.Index.keyLt (a.toList.map Char.toNat) (b.toList.map Char.toNat)

/-- Sorted insertion into the children map, replacing an existing name:
the model of `BTreeMap::insert`. -/
def tinsert (k : String) (v : TreeX) : List (String × TreeX) → List (String × TreeX)
  | [] => [(k, v)]
  | (a, b) :: rest =>
    if strLt k a then (k, v) :: (a, b) :: rest
    else if k = a then (k, v) :: rest
    else (a, b) :: tinsert k v rest

/-- Stable insertion used to model `Vec::sort` via insertion sort. -/
def insertBy {α : Type} (lt : α → α → Bool) (x : α) : List α → List α
  | [] => [x]
  | y :: ys => if lt x y then x :: y :: ys else y :: insertBy lt x ys

/-- Insertion sort by a strict comparison, the model of `Vec::sort`. -/
def sortBy {α : Type} (lt : α → α → Bool) (l : List α) : List α :=
  l.foldr (insertBy lt) []

/-- The derived `Ord` of `database::Entry`: name, then oid, then mode. -/
def entLt (a b : DbEntry) : Bool :=
  strLt a.name b.name
    || (a.name = b.name && (strLt a.oid b.oid
        || (a.oid = b.oid && a.mode < b.mode)))

/-- Splitting a list at a separator element, keeping empty pieces. -/
def splitCharsOn (c : Char) : List Char → List (List Char)
  | [] => [[]]
  | x :: xs =>
    match splitCharsOn c xs with
    | [] => [[x]]
    | h :: t => if x = c then [] :: h :: t else (x :: h) :: t

/-- Path components of an entry name, the model of `Path::new(..).iter()`. -/
def splitSlash (s : String) : List String :=
  (splitCharsOn '/' s.toList).map (fun cs => String.mk cs)

/-- Embedding of `Tree::add_entry` on the children map: walk or create
the intermediate trees along `path` and place the leaf at `name`. -/
def add_entry_children (ch : List (String × TreeX)) :
    List String → String → DbEntry → List (String × TreeX)
  | [], name, e => tinsert name (.file e) ch
  | d :: rest, name, e =>
    match alookup d ch with
    | some (.node sub) => tinsert d (.node (add_entry_children sub rest name e)) ch
    | _ => tinsert d (.node (add_entry_children [] rest name e)) ch

/-- Embedding of `Tree::build`: sort the entries, split each name into
components, and insert leaf by leaf from the root. -/
def build (entries : List DbEntry) : TreeX :=
  .node ((sortBy entLt entries).foldl
    (fun ch e =>
      let path := splitSlash e.name
      match path.getLast? with
      | some nm => add_entry_children ch path.dropLast nm e
      | none => ch)
    [])

/-- ASCII bytes of a string (tree names and framing text are ASCII in the
examined inputs; `format!` emits UTF-8). -/
def strBytes (s : String) : List Nat :=
  s.toList.map Char.toNat

/-- Octal digit characters of a number (`{:o}` formatting), fuel-driven. -/
def octAux : Nat → Nat → List Nat
  | 0, n => [48 + n % 8]
  | f + 1, n => if n < 8 then [48 + n] else octAux f (n / 8) ++ [48 + n % 8]

/-- Octal representation of a mode, as `format!("{:o} ..")` prints it. -/
def modeOctal (m : Nat) : List Nat :=
  octAux m m

/-- Decimal digit characters of a number, fuel-driven. -/
def decAux : Nat → Nat → List Nat
  | 0, n => [48 + n % 10]
  | f + 1, n => if n < 10 then [48 + n] else decAux f (n / 10) ++ [48 + n % 10]

/-- Embedding of `Object::get_content`'s framing: `<type> <len>\0<body>`. -/
def frame (ty : String) (body : List Nat) : List Nat :=
  strBytes ty ++ [32] ++ decAux body.length body.length ++ [0] ++ body

/-- Embedding of `Tree::to_string`, fuel-driven for the nested recursion:
each child contributes `<octal-mode> <name>\0<20-byte-oid>`, leaf oids
from the stored hex oid, subtree oids by hashing the framed serialized
subtree with the supplied digest (`Object::get_oid`). -/
def serT (sha : List Nat → String) : Nat → TreeX → List Nat
  | 0, _ => []
  | _ + 1, .file _ => []
  | fuel + 1, .node ch =>
    ch.foldr
      (fun nc acc =>
        modeOctal (te_mode nc.2) ++ [32] ++ strBytes nc.1 ++ [0] ++
        (match nc.2 with
         | .file e => decode_hex_d e.oid
         | .node sub => decode_hex_d (sha (frame "tree" (serT sha fuel (.node sub)))))
        ++ acc)
      []

mutual

/-- Fuel sufficient for a whole tree: one more than the deepest child. -/
def TreeX.depthFuel : TreeX → Nat
  | .file _ => 1
  | .node ch => 1 + depthFuelL ch

/-- Largest fuel needed by any child of a level. -/
def depthFuelL : List (String × TreeX) → Nat
  | [] => 0
  | nc :: rest => max nc.2.depthFuel (depthFuelL rest)

end

/-- `Tree::to_string` with enough fuel for the whole tree. -/
def to_string (sha : List Nat → String) (t : TreeX) : List Nat :=
  serT sha t.depthFuel t

/-- Modelled from the spec: git's canonical tree form, to which I5
asserts byte-equality.  Identical per-entry bytes, but each level is
ordered by git's rule, which compares a directory name as the name with
`/` appended. -/
def gitKey (nc : String × TreeX) : String :=
  match nc.2 with
  | .node _ => nc.1 ++ "/"
  | .file _ => nc.1

/-- Modelled from the spec: git's ordering of one tree level. -/
def gitLt (a b : String × TreeX) : Bool :=
  strLt (gitKey a) (gitKey b)

/-- Modelled from the spec: git's canonical serialization, fuel-driven
like `serT`, with every level re-sorted by git's rule. -/
def gitSerT (sha : List Nat → String) : Nat → TreeX → List Nat
  | 0, _ => []
  | _ + 1, .file _ => []
  | fuel + 1, .node ch =>
    (sortBy gitLt ch).foldr
      (fun nc acc =>
        modeOctal (te_mode nc.2) ++ [32] ++ strBytes nc.1 ++ [0] ++
        (match nc.2 with
         | .file e => decode_hex_d e.oid
         | .node sub => decode_hex_d (sha (frame "tree" (gitSerT sha fuel (.node sub)))))
        ++ acc)
      []

/-- Modelled from the spec: git's canonical bytes of a whole tree. -/
def git_canonical (sha : List Nat → String) (t : TreeX) : List Nat :=
  gitSerT sha t.depthFuel t

/-- Every level of the tree, up to the fuel, is already in git order:
consecutive-free of inversions under `gitLt` and recursively so. -/
def orderAgrees : Nat → TreeX → Prop
  | 0, _ => True
  | _ + 1, .file _ => True
  | fuel + 1, .node ch =>
    List.Pairwise (fun a b => gitLt a b = true) ch ∧ ∀ nc ∈ ch, orderAgrees fuel nc.2

instance orderAgreesDec : (fuel : Nat) → (t : TreeX) → Decidable (orderAgrees fuel t)
  | 0, _ => isTrue trivial
  | _ + 1, .file _ => isTrue trivial
  | fuel + 1, .node _ =>
    haveI : DecidablePred (fun nc : String × TreeX => orderAgrees fuel nc.2) :=
      fun nc => orderAgreesDec fuel nc.2
    inferInstanceAs (Decidable (_ ∧ _))

end Rug.Tree

namespace Rug.Revision

/-- Embedding of `revision::Rev`. -/
inductive Rev where
  | Ref (name : String)
  | Parent (rev : Rev)
  | Ancestor (rev : Rev) (n : Nat)
deriving DecidableEq, Repr

/-- One character class of the `INVALID_NAME` regex set: control bytes
and space, the listed punctuation, and DEL. -/
def invalidChar (c : Char) : Bool :=
  c.toNat ≤ 32 || c = '*' || c = ':' || c = '?' || c = '['
    || c = '\\' || c = '^' || c = '~' || c.toNat = 127

/-- Whether `pat` occurs as a contiguous subsequence of `l`. -/
def containsSeq (pat : List Char) : List Char → Bool
  | [] => pat.isEmpty
  | c :: rest => (pat.isPrefixOf (c :: rest)) || containsSeq pat rest

/-- Embedding of `Revision::is_valid_ref`: none of the `INVALID_NAME`
patterns matches (leading dot, `/.`, `..`, trailing `/`, trailing
`.lock`, `@` followed by an opening brace, or an invalid character). -/
def is_valid_ref (l : List Char) : Bool :=
  !(l.take 1 = ['.'])
    && !(containsSeq ['/', '.'] l)
    && !(containsSeq ['.', '.'] l)
    && !(l.getLast? = some '/')
    && !(['.', 'l', 'o', 'c', 'k'].isSuffixOf l)
    && !(containsSeq ['@', '\x7b'] l)
    && !(l.any invalidChar)

/-- Decimal value of a digit-character list. -/
def digitsToNat (ds : List Char) : Nat :=
  ds.foldl (fun a c => a * 10 + (c.toNat - 48)) 0

/-- The maximal digit suffix of an expression, the `(\d+)` group the
greedy `ANCESTOR` regex captures. -/
def trailingDigits (l : List Char) : List Char :=
  (l.reverse.takeWhile Char.isDigit).reverse

/-- Embedding of `Revision::parse`, fuel-driven (the fuel dominates the
expression length).  `PARENT` strips a trailing `^`; `ANCESTOR` strips a
trailing `~<digits>` (the greedy `(.+)` keeps every earlier character);
otherwise a valid name becomes a `Ref`, with the alias `@` -> `HEAD`.
A failed inner parse aborts (an `expect` panic in the source). -/
def parseAux : Nat → List Char → Option Rev
  | 0, _ => none
  | fuel + 1, l =>
    if l.getLast? = some '^' ∧ 2 ≤ l.length then
      (parseAux fuel l.dropLast).map .Parent
    else
      if trailingDigits l ≠ []
          ∧ (l.take (l.length - (trailingDigits l).length)).getLast? = some '~'
          ∧ l.length ≥ (trailingDigits l).length + 2 then
        (parseAux fuel (l.take (l.length - ((trailingDigits l).length + 1)))).map
          (.Ancestor · (digitsToNat (trailingDigits l)))
      else if is_valid_ref l then
        some (.Ref (if l = ['@'] then "HEAD" else String.mk l))
      else none

/-- `Revision::parse` on a string: the fuel strictly dominates the
length, so every recursive step stays within fuel. -/
def parseRev (s : String) : Option Rev :=
  parseAux (s.toList.length + 1) s.toList

/-- A database object as the revision resolver distinguishes them. -/
inductive Obj where
  | commit (parent : Option String)
  | blob
  | tree
deriving DecidableEq, Repr

/-- The repository state the resolver consults: resolved refs (the model
of `Refs::read_ref`, which follows symref chains to an oid) and the
object database keyed by oid. -/
structure RevState where
  refs : List (String × String)
  objects : List (String × Obj)
deriving DecidableEq, Repr

/-- Embedding of `Database::prefix_match`: every stored oid starting with
the name. -/
def prefix_match (st : RevState) (name : List Char) : List String :=
  (st.objects.map (fun ob => ob.1)).filter
    (fun oid => name.isPrefixOf oid.toList)

/-- Embedding of `Revision::load_commit`'s success test. -/
def is_commit (st : RevState) (oid : String) : Bool :=
  match alookup oid st.objects with
  | some (.commit _) => true
  | _ => false

/-- Embedding of `Revision::commit_parent`. -/
def commit_parent (st : RevState) (oid : String) : Option String :=
  match alookup oid st.objects with
  | some (.commit p) => p
  | _ => none

/-- Embedding of `Revision::read_ref`: a known ref wins, otherwise a
unique prefix match among the stored objects. -/
def read_ref (st : RevState) (name : String) : Option String :=
  match alookup name st.refs with
  | some oid => some oid
  | none =>
    match prefix_match st name.toList with
    | [c] => some c
    | _ => none

/-- The loop body of the `Ancestor` case of `resolve_query`: follow the
first parent `n` times, stopping early (keeping the last oid) when a
commit has no parent. -/
def ancestor_loop (st : RevState) : Nat → String → String
  | 0, oid => oid
  | n + 1, oid =>
    match commit_parent st oid with
    | some p => ancestor_loop st n p
    | none => oid

/-- Embedding of `Revision::resolve_query`. -/
def resolve_query (st : RevState) : Rev → Option String
  | .Ref name => read_ref st name
  | .Parent rev =>
    match resolve_query st rev with
    | some oid => commit_parent st oid
    | none => none
  | .Ancestor rev n =>
    match resolve_query st rev with
    | some oid => some (ancestor_loop st n oid)
    | none => none

/-- Embedding of `Revision::resolve`: parse, evaluate, and demand that
the final oid loads as a commit. -/
def resolve (st : RevState) (expr : String) : Option String :=
  match parseRev expr with
  | none => none
  | some q =>
    match resolve_query st q with
    | none => none
    | some oid => if is_commit st oid then some oid else none

/-- First parent applied exactly `n` times, every step defined: the
iterated-parent function the claim compares `x~N` against. -/
def iter_parent (st : RevState) : Nat → String → Option String
  | 0, oid => some oid
  | n + 1, oid =>
    match commit_parent st oid with
    | some p => iter_parent st n p
    | none => none

end Rug.Revision

namespace Rug.Workspace

/-- A working-tree node: a file with its bytes, or a directory with named
children. -/
inductive FsNode where
  | file (data : List Nat)
  | dir (children : List (String × FsNode))

/-- Embedding of the `IGNORE_PATHS` table of `workspace.rs`. -/
def IGNORE_PATHS : List String :=
  [".git", "target"]

/-- Embedding of `Workspace::list_dir` on a directory's children: every
child whose name is not ignored, with its node standing in for the stat
the source returns. -/
def list_dir (ch : List (String × FsNode)) : List (String × FsNode) :=
  ch.filter (fun nc => !(IGNORE_PATHS.contains nc.1))

/-- Embedding of `Workspace::list_files`, fuel-driven for the nested
recursion: a file contributes its own relative path (`rel`); a directory
named in `IGNORE_PATHS` contributes nothing; any other directory
recurses into all children.  `name` is the node's final path component
(`dir.file_name()`), `rel` its path relative to the workspace root. -/
def list_files (fuel : Nat) (rel : RPath) (name : String) (node : FsNode) : List RPath :=
  match node, fuel with
  | .file _, _ => [rel]
  | .dir _, 0 => []
  | .dir ch, fuel + 1 =>
    if IGNORE_PATHS.contains name then []
    else ch.foldr (fun nc acc => list_files fuel (rel ++ [nc.1]) nc.1 nc.2 ++ acc) []

/-- Embedding of `Workspace::read_file` over a flat file map:
`read_to_string` yields the file's bytes only when they are valid UTF-8
and fails with `InvalidData` (here `none`) otherwise. -/
def read_file (files : List (String × List Nat)) (file_name : String) :
    Option (List Nat) :=
  match alookup file_name files with
  | none => none
  | some data => if validUtf8 data then some data else none

end Rug.Workspace

namespace Rug.Migrate

namespace Facts

theorem class_error_eq_nil {m : Migration} {c : ConflictType}
    (h : class_error m c = []) : m.conflicts c = [] := by
  by_cases hc : (m.conflicts c).isEmpty
  · simpa using hc
  · simp [class_error, hc] at h

theorem conflicts_eq_nil_of_collect {m : Migration}
    (h : collect_errors m = []) (c : ConflictType) : m.conflicts c = [] := by
  rw [collect_errors] at h
  rcases List.append_eq_nil.mp h with ⟨h1, h2⟩
  rcases List.append_eq_nil.mp h1 with ⟨h3, h4⟩
  rcases List.append_eq_nil.mp h3 with ⟨h5, h6⟩
  cases c
  · exact class_error_eq_nil h5
  · exact class_error_eq_nil h6
  · exact class_error_eq_nil h4
  · exact class_error_eq_nil h2

end Facts

/-- C1.  If any of the four conflict classes recorded while planning a
migration is non-empty, the checkout finishing step fails with the joined
grouped diagnostics of `collect_errors` and leaves the repository --
workspace, index and HEAD -- exactly as it was. -/
theorem apply_changes_conflict_refuses (check : Checker) (db : String → List Nat)
    (diff : List (RPath × (Option TreeEntry × Option TreeEntry)))
    (target_oid : String) (repo : Repository)
    (h : ∃ c, (plan_changes check repo diff).conflicts c ≠ []) :
    checkout_finish check db diff target_oid repo =
      (some (String.intercalate "\n" (collect_errors (plan_changes check repo diff))),
       repo) := by
  obtain ⟨c, hc⟩ := h
  have hne : collect_errors (plan_changes check repo diff) ≠ [] := fun hnil =>
    hc (Facts.conflicts_eq_nil_of_collect hnil c)
  have hempty : (collect_errors (plan_changes check repo diff)).isEmpty = false := by
    simpa [List.isEmpty_iff] using hne
  rw [checkout_finish, apply_changes]
  simp only [hempty]
  rfl

/-- Witness for C1: a one-entry diff whose checker records a stale-file
conflict refuses the migration and keeps the concrete repository intact. -/
theorem apply_changes_conflict_refuses_witness :
    (∃ c, (plan_changes
        (fun _ p _ _ => [(ConflictType.StaleFile, p)])
        ⟨[(["1.txt"], ⟨"aa", 33188⟩)], [(["1.txt"], [49])], "h0"⟩
        [(["1.txt"], (some ⟨"bb", 33188⟩, some ⟨"cc", 33188⟩))]).conflicts c ≠ []) ∧
    checkout_finish (fun _ p _ _ => [(ConflictType.StaleFile, p)]) (fun _ => [])
        [(["1.txt"], (some ⟨"bb", 33188⟩, some ⟨"cc", 33188⟩))] "t0"
        ⟨[(["1.txt"], ⟨"aa", 33188⟩)], [(["1.txt"], [49])], "h0"⟩ =
      (some (String.intercalate "\n" (collect_errors (plan_changes
        (fun _ p _ _ => [(ConflictType.StaleFile, p)])
        ⟨[(["1.txt"], ⟨"aa", 33188⟩)], [(["1.txt"], [49])], "h0"⟩
        [(["1.txt"], (some ⟨"bb", 33188⟩, some ⟨"cc", 33188⟩))]))),
       ⟨[(["1.txt"], ⟨"aa", 33188⟩)], [(["1.txt"], [49])], "h0"⟩) :=
  ⟨⟨ConflictType.StaleFile, by decide⟩,
   apply_changes_conflict_refuses _ _ _ _ _ ⟨ConflictType.StaleFile, by decide⟩⟩

/-- C9.  Evaluating the migration-failure path on a migration whose only
conflict is a stale directory at `outer/2.txt`: the produced diagnostic
carries the misspelled header `untracekdd` from the source's `MESSAGES`
table, and so differs from the header the specification states (the
repository's own checkout test expects the spelling `untracked`). -/
theorem collect_errors_stale_directory_header :
    apply_changes (fun _ p _ _ => [(ConflictType.StaleDirectory, p)]) (fun _ => [])
        [(["outer", "2.txt"], (some ⟨"bb", 33188⟩, none))]
        ⟨[], [], "h0"⟩ =
      .error "Updating the following directories would lose untracekdd files in them:\n\touter/2.txt\n\n\n\n"
    ∧ "Updating the following directories would lose untracekdd files in them:\n\touter/2.txt\n\n\n\n" ≠
      "Updating the following directories would lose untracked files in them:\n\touter/2.txt\n\n\n\n" := by
  exact ⟨rfl, by decide⟩

end Rug.Migrate

namespace Rug.Refs

/-- C5.  Evaluating `update_head` on a repository whose HEAD is a
symbolic ref to an existing branch: the branch file is updated and the
command succeeds, but the `HEAD.lock` file acquired on the way down is
never committed nor rolled back, so a `.lock` file remains in the git
directory -- contradicting the claim that no partial state is left. -/
theorem update_head_leaves_stale_head_lock :
    update_head [("HEAD", "ref: refs/heads/master\n"),
                 ("refs/heads/master", "aaa111\n")] "bbb222" =
      some (.ok [("HEAD", "ref: refs/heads/master\n"),
                 ("refs/heads/master", "bbb222\n"),
                 ("HEAD.lock", "")]) ∧
    alookup "HEAD.lock"
        [("HEAD", "ref: refs/heads/master\n"),
         ("refs/heads/master", "bbb222\n"),
         ("HEAD.lock", "")] = some "" := by
  exact ⟨rfl, rfl⟩

end Rug.Refs

namespace Rug.Status

/-- C2.  Evaluating the status index check on an entry whose stat
matches, whose times differ, and whose file content hashes back to the
stored oid: no workspace or index change is recorded, the index's
`changed` flag is set -- but the entries map still holds the original
entry with its stale timestamps (only the clone was refreshed), so the
index that `write_updates` rewrites keeps the old stat. -/
theorem check_index_entries_drops_stat_refresh :
    check_index_entries
        (fun p => if p = [97] then some [49] else none)
        (fun _ => "a1")
        ⟨[([97], ⟨1, 0, 1, 0, 1, 1, 1, 1, 1, 1, 33188, "a1", [97]⟩)], false,
         [([97], ⟨2, 0, 2, 0, 1, 1, 33188, 1, 1, 1⟩)],
         [([97], ⟨"a1", 33188⟩)], [], [], []⟩ =
      ⟨[([97], ⟨1, 0, 1, 0, 1, 1, 1, 1, 1, 1, 33188, "a1", [97]⟩)], true,
       [([97], ⟨2, 0, 2, 0, 1, 1, 33188, 1, 1, 1⟩)],
       [([97], ⟨"a1", 33188⟩)], [], [], []⟩ := by
  rfl

end Rug.Status

namespace Rug.Workspace

/-- C8.  Evaluating `read_file` on a readable one-byte file holding
`0xFF` (not valid UTF-8): `read_to_string` fails, so the contents are
not returned, while a valid-UTF-8 file of the same shape is returned
whole -- the claim promises the bytes regardless of UTF-8 validity. -/
theorem read_file_rejects_non_utf8 :
    read_file [("bin", [255])] "bin" = none ∧
    read_file [("txt", [104])] "txt" = some [104] := by
  exact ⟨rfl, rfl⟩

/-- C10 counterexample.  A workspace whose root holds a regular file
named `target`: `list_files` reports it (the file test precedes the
ignore test), so a child named `target` does appear in a listing. -/
theorem list_files_lists_file_named_target :
    list_files 2 [] "repo" (.dir [("target", .file [104])]) = [["target"]] ∧
    ["target"] ∈ list_files 2 [] "repo" (.dir [("target", .file [104])]) := by
  exact ⟨rfl, by simp [list_files, IGNORE_PATHS]⟩

end Rug.Workspace

namespace Rug.Tree

/-- C3 counterexample.  Index entries `foo.txt` (a file) and `foo/bar`
(demanding a sibling directory `foo`): the built tree serializes its
level in plain name order (`foo` before `foo.txt`), while git's
canonical form orders the directory as `foo/` after `foo.txt`, so the
bytes differ and so do the resulting oids. -/
theorem build_to_string_not_git_canonical :
    to_string (fun _ => "cccccccccccccccccccccccccccccccccccccccc")
        (build
          [⟨"foo.txt", "aaaaaaaaaaaaaaaaaaaaaaaaaaaaaaaaaaaaaaaa", 33188⟩,
           ⟨"foo/bar", "bbbbbbbbbbbbbbbbbbbbbbbbbbbbbbbbbbbbbbbb", 33188⟩]) ≠
      git_canonical (fun _ => "cccccccccccccccccccccccccccccccccccccccc")
        (build
          [⟨"foo.txt", "aaaaaaaaaaaaaaaaaaaaaaaaaaaaaaaaaaaaaaaa", 33188⟩,
           ⟨"foo/bar", "bbbbbbbbbbbbbbbbbbbbbbbbbbbbbbbbbbbbbbbb", 33188⟩]) := by
  decide

end Rug.Tree

namespace Rug.Tree

theorem sortBy_pairwise_id {α : Type} (lt : α → α → Bool) (l : List α)
    (h : List.Pairwise (fun a b => lt a b = true) l) : sortBy lt l = l := by
  induction l with
  | nil => rfl
  | cons x xs ih =>
    rcases List.pairwise_cons.mp h with ⟨hx, hxs⟩
    show insertBy lt x (sortBy lt xs) = x :: xs
    rw [ih hxs]
    cases xs with
    | nil => rfl
    | cons y ys => simp [insertBy, hx y (List.mem_cons_self _ _)]

theorem serT_eq_gitSerT (sha : List Nat → String) (fuel : Nat) :
    ∀ t, orderAgrees fuel t → serT sha fuel t = gitSerT sha fuel t := by
  induction fuel with
  | zero => intro t _; rfl
  | succ f ih =>
    intro t h
    cases t with
    | file e => rfl
    | node ch =>
      obtain ⟨hsort, hall⟩ := h
      simp only [serT, gitSerT, sortBy_pairwise_id gitLt ch hsort]
      clear hsort
      induction ch with
      | nil => rfl
      | cons hd tl ihl =>
        simp only [List.foldr_cons]
        rw [ihl (fun x hx => hall x (List.mem_cons_of_mem _ hx))]
        rcases hhd : hd.2 with e | sub
        · rfl
        · have hsub := hall hd (List.mem_cons_self _ _)
          rw [hhd] at hsub
          simp only [ih (.node sub) hsub]

/-- C3 amended.  Tree serialization is the concatenation, in plain
lexicographic name order, of `<octal-mode> <name>\0<20-byte-oid>`; it
coincides with git's canonical form exactly when every level is already
in git's order (no file/directory sibling pair whose plain order differs
from git's slash-extended order). -/
theorem to_string_eq_git_canonical_of_orderAgrees (sha : List Nat → String)
    (t : TreeX) (h : orderAgrees t.depthFuel t) :
    to_string sha t = git_canonical sha t := by
  exact serT_eq_gitSerT sha t.depthFuel t h

/-- Witness for the amended C3: a tree with the file `a.txt` and the
directory `b` agrees with git order at every level, and its
serialization equals git's canonical bytes. -/
theorem to_string_eq_git_canonical_witness :
    orderAgrees
        (build [⟨"a.txt", "aaaaaaaaaaaaaaaaaaaaaaaaaaaaaaaaaaaaaaaa", 33188⟩,
                ⟨"b/c", "bbbbbbbbbbbbbbbbbbbbbbbbbbbbbbbbbbbbbbbb", 33188⟩]).depthFuel
        (build [⟨"a.txt", "aaaaaaaaaaaaaaaaaaaaaaaaaaaaaaaaaaaaaaaa", 33188⟩,
                ⟨"b/c", "bbbbbbbbbbbbbbbbbbbbbbbbbbbbbbbbbbbbbbbb", 33188⟩]) ∧
    to_string (fun _ => "cccccccccccccccccccccccccccccccccccccccc")
        (build [⟨"a.txt", "aaaaaaaaaaaaaaaaaaaaaaaaaaaaaaaaaaaaaaaa", 33188⟩,
                ⟨"b/c", "bbbbbbbbbbbbbbbbbbbbbbbbbbbbbbbbbbbbbbbb", 33188⟩]) =
      git_canonical (fun _ => "cccccccccccccccccccccccccccccccccccccccc")
        (build [⟨"a.txt", "aaaaaaaaaaaaaaaaaaaaaaaaaaaaaaaaaaaaaaaa", 33188⟩,
                ⟨"b/c", "bbbbbbbbbbbbbbbbbbbbbbbbbbbbbbbbbbbbbbbb", 33188⟩]) :=
  ⟨by decide,
   to_string_eq_git_canonical_of_orderAgrees _ _ (by decide)⟩

end Rug.Tree

namespace Rug.Revision

theorem parseAux_mono : ∀ (f1 f2 : Nat) (l : List Char), l.length < f1 →
    l.length < f2 → parseAux f1 l = parseAux f2 l := by
  intro f1
  induction f1 with
  | zero => intro f2 l h1 h2; omega
  | succ g ih =>
    intro f2 l h1 h2
    cases f2 with
    | zero => omega
    | succ h =>
      simp only [parseAux]
      by_cases hp : l.getLast? = some '^' ∧ 2 ≤ l.length
      · rw [if_pos hp, if_pos hp, ih h l.dropLast (by simp; omega) (by simp; omega)]
      · rw [if_neg hp, if_neg hp]
        by_cases ha : trailingDigits l ≠ []
            ∧ (l.take (l.length - (trailingDigits l).length)).getLast? = some '~'
            ∧ l.length ≥ (trailingDigits l).length + 2
        · have hlen : (l.take (l.length - ((trailingDigits l).length + 1))).length < g := by
            simp only [List.length_take]
            omega
          have hlen2 : (l.take (l.length - ((trailingDigits l).length + 1))).length < h := by
            simp only [List.length_take]
            omega
          rw [if_pos ha, if_pos ha, ih h _ hlen hlen2]
        · rw [if_neg ha, if_neg ha]

theorem parseRev_append_caret (x : String) (hx : x.toList ≠ []) :
    parseRev (x ++ "^") = (parseRev x).map .Parent := by
  have hl : (x ++ "^").toList = x.toList ++ ['^'] := by
    simp [String.toList, String.data_append]
  rw [parseRev, parseRev, hl]
  have hcond : (x.toList ++ ['^']).getLast? = some '^' ∧ 2 ≤ (x.toList ++ ['^']).length := by
    constructor
    · exact List.getLast?_concat _
    · simp only [List.length_append, List.length_singleton]
      have := List.length_pos.mpr hx
      omega
  conv_lhs => rw [parseAux]
  rw [if_pos hcond, List.dropLast_concat,
    parseAux_mono ((x.toList ++ ['^']).length) (x.toList.length + 1) x.toList
      (by simp) (by omega)]

theorem takeWhile_digits_append (a : List Char) (c : Char) (b : List Char)
    (ha : ∀ x ∈ a, x.isDigit) (hc : c.isDigit = false) :
    (a ++ c :: b).takeWhile Char.isDigit = a := by
  induction a with
  | nil => simp [List.takeWhile_cons, hc]
  | cons y ys ih =>
    simp only [List.cons_append, List.takeWhile_cons,
      ha y (List.mem_cons_self _ _), if_true]
    rw [ih (fun z hz => ha z (List.mem_cons_of_mem _ hz))]

theorem trailingDigits_spec (x : List Char) (ds : List Char)
    (hdig : ∀ c ∈ ds, c.isDigit) :
    trailingDigits (x ++ '~' :: ds) = ds := by
  rw [trailingDigits]
  have : (x ++ '~' :: ds).reverse = ds.reverse ++ '~' :: x.reverse := by
    simp
  rw [this, takeWhile_digits_append _ _ _ (fun c hc => hdig c (by simpa using hc)) (by decide),
    List.reverse_reverse]

theorem parseRev_append_tilde (x : String) (ds : List Char) (hx : x.toList ≠ [])
    (hds : ds ≠ []) (hdig : ∀ c ∈ ds, c.isDigit) :
    parseRev (x ++ "~" ++ String.mk ds) =
      (parseRev x).map (.Ancestor · (digitsToNat ds)) := by
  have hl : (x ++ "~" ++ String.mk ds).toList = x.toList ++ '~' :: ds := by
    simp [String.toList, String.data_append]
  rw [parseRev, parseRev, hl]
  have hn := List.length_pos.mpr hx
  have hk := List.length_pos.mpr hds
  have hlen : (x.toList ++ '~' :: ds).length = x.toList.length + 1 + ds.length := by
    simp; omega
  have hcons : ('~' :: ds).getLast? = ds.getLast? := by
    cases ds with
    | nil => exact absurd rfl hds
    | cons d dd => simp
  have hlast : (x.toList ++ '~' :: ds).getLast? = ds.getLast? := by
    rw [List.getLast?_append, hcons]
    obtain ⟨c, hc⟩ := Option.isSome_iff_exists.mp (List.getLast?_isSome.mpr hds)
    rw [hc]
    rfl
  have hnotcaret : ¬ ((x.toList ++ '~' :: ds).getLast? = some '^'
      ∧ 2 ≤ (x.toList ++ '~' :: ds).length) := by
    intro hcon
    rcases hcon with ⟨hcar, _⟩
    rw [hlast] at hcar
    rcases List.getLast?_eq_some_iff.mp hcar with ⟨ds', hds'⟩
    have : ('^' : Char).isDigit := by
      apply hdig
      rw [hds']
      exact List.mem_concat_self _ _
    exact absurd this (by decide)
  have htd : trailingDigits (x.toList ++ '~' :: ds) = ds :=
    trailingDigits_spec _ _ hdig
  have htake1 : (x.toList ++ '~' :: ds).take
      ((x.toList ++ '~' :: ds).length - ds.length) = x.toList ++ ['~'] := by
    rw [hlen]
    have h2 : x.toList.length + 1 + ds.length - ds.length = x.toList.length + 1 := by omega
    rw [h2, show x.toList ++ '~' :: ds = (x.toList ++ ['~']) ++ ds by simp]
    exact List.take_left' (by simp)
  have htake2 : (x.toList ++ '~' :: ds).take
      ((x.toList ++ '~' :: ds).length - (ds.length + 1)) = x.toList := by
    rw [hlen]
    have h2 : x.toList.length + 1 + ds.length - (ds.length + 1) = x.toList.length := by omega
    rw [h2]
    exact List.take_left' rfl
  have hcond : trailingDigits (x.toList ++ '~' :: ds) ≠ []
      ∧ ((x.toList ++ '~' :: ds).take
          ((x.toList ++ '~' :: ds).length - (trailingDigits (x.toList ++ '~' :: ds)).length)).getLast?
        = some '~'
      ∧ (x.toList ++ '~' :: ds).length ≥ (trailingDigits (x.toList ++ '~' :: ds)).length + 2 := by
    refine ⟨by rw [htd]; exact hds, ?_, ?_⟩
    · rw [htd, htake1]
      exact List.getLast?_concat _
    · rw [htd, hlen]; omega
  conv_lhs => rw [parseAux]
  rw [if_neg hnotcaret, if_pos hcond, htd, htake2,
    parseAux_mono ((x.toList ++ '~' :: ds).length) (x.toList.length + 1) x.toList
      (by rw [hlen]; omega) (by omega)]

theorem ancestor_loop_eq_iter (st : RevState) :
    ∀ (n : Nat) (oid r : String), iter_parent st n oid = some r →
      ancestor_loop st n oid = r := by
  intro n
  induction n with
  | zero => intro oid r h; simpa [iter_parent, ancestor_loop] using h
  | succ m ih =>
    intro oid r h
    rw [iter_parent] at h
    rw [ancestor_loop]
    cases hcp : commit_parent st oid with
    | none => rw [hcp] at h; exact absurd h (by simp)
    | some p => rw [hcp] at h; exact ih p r h

theorem resolve_elim (st : RevState) (x : String) (oid : String)
    (h : resolve st x = some oid) :
    ∃ q, parseRev x = some q ∧ resolve_query st q = some oid
      ∧ is_commit st oid = true := by
  rw [resolve] at h
  cases hq : parseRev x with
  | none => simp only [hq] at h; exact absurd h (by simp)
  | some q =>
    simp only [hq] at h
    cases hr : resolve_query st q with
    | none => simp only [hr] at h; exact absurd h (by simp)
    | some o =>
      simp only [hr] at h
      by_cases hc : is_commit st o
      · rw [if_pos hc] at h
        obtain rfl : o = oid := by simpa using h
        exact ⟨q, rfl, hr, hc⟩
      · rw [if_neg hc] at h; exact absurd h (by simp)

/-- C7 amended.  `resolve("@")` equals `resolve("HEAD")` (the `@` alias);
for a non-empty expression `x` resolving to a commit, `resolve(x^)` is
the commit's first parent (when that parent exists and is a commit); and
`resolve(x~N)` (with `N` written as digits) equals the first parent
applied `N` times whenever the parent chain supports all `N` steps --
when it runs out early, the code instead returns the deepest ancestor
reached, as the counterexample shows. -/
theorem resolve_amended (st : RevState) (x : String) (oid p r : String) (ds : List Char)
    (hx : x.toList ≠ [])
    (hres : resolve st x = some oid)
    (hp : commit_parent st oid = some p)
    (hpc : is_commit st p = true)
    (hds : ds ≠ []) (hdig : ∀ c ∈ ds, c.isDigit)
    (hit : iter_parent st (digitsToNat ds) oid = some r)
    (hrc : is_commit st r = true) :
    resolve st "@" = resolve st "HEAD"
    ∧ resolve st (x ++ "^") = some p
    ∧ resolve st (x ++ "~" ++ String.mk ds) = some r := by
  obtain ⟨q, hq, hrq, _⟩ := resolve_elim st x oid hres
  refine ⟨rfl, ?_, ?_⟩
  · rw [resolve, parseRev_append_caret x hx, hq]
    simp [resolve_query, hrq, hp, hpc]
  · rw [resolve, parseRev_append_tilde x ds hx hds hdig, hq]
    simp [resolve_query, hrq, ancestor_loop_eq_iter st (digitsToNat ds) oid r hit, hrc]

/-- Witness for the amended C7: a three-commit chain under `master`. -/
theorem resolve_amended_witness :
    resolve ⟨[("master", "c2")],
        [("c2", .commit (some "c1")), ("c1", .commit (some "c0")),
         ("c0", .commit none)]⟩ "master~1" = some "c1"
    ∧ resolve ⟨[("master", "c2")],
        [("c2", .commit (some "c1")), ("c1", .commit (some "c0")),
         ("c0", .commit none)]⟩ "master^" = some "c1" := by
  have h := resolve_amended
    ⟨[("master", "c2")],
     [("c2", .commit (some "c1")), ("c1", .commit (some "c0")), ("c0", .commit none)]⟩
    "master" "c2" "c1" "c1" ['1']
    (by decide) rfl rfl rfl (by decide) (by decide) rfl rfl
  exact ⟨h.2.2, h.2.1⟩

/-- C7 counterexample.  A repository whose only commit `c0` has no
parent: `master~1` resolves to `c0` itself (the loop breaks and keeps
the last oid), while applying `first parent` once is undefined, so
`resolve(x~N)` differs from `parent^N(resolve(x))`. -/
theorem resolve_ancestor_overrun :
    resolve ⟨[("master", "c0")], [("c0", .commit none)]⟩ "master~1" = some "c0"
    ∧ iter_parent ⟨[("master", "c0")], [("c0", .commit none)]⟩ 1 "c0" = none := by
  exact ⟨rfl, rfl⟩

end Rug.Revision

namespace Rug.Workspace

theorem mem_foldr_append {α β : Type} (f : α → List β) (p : β) :
    ∀ (l : List α), p ∈ l.foldr (fun x acc => f x ++ acc) [] ↔ ∃ x ∈ l, p ∈ f x := by
  intro l
  induction l with
  | nil => simp
  | cons y ys ih => simp [List.foldr_cons, List.mem_append, ih]

/-- C10 amended.  `list_dir` omits every child named `.git` or `target`;
`list_files` returns nothing for a directory so named, hence nothing
beneath one; and every path it does return passes only through
non-ignored directories -- its final component alone may be an ignored
name, which is exactly the regular-file case of the counterexample. -/
theorem list_skip_ignored_amended :
    (∀ (ch : List (String × FsNode)) (nc : String × FsNode),
        nc ∈ list_dir ch → ¬ nc.1 ∈ IGNORE_PATHS)
    ∧ (∀ (fuel : Nat) (rel : RPath) (name : String) (ch : List (String × FsNode)),
        name ∈ IGNORE_PATHS → list_files fuel rel name (.dir ch) = [])
    ∧ (∀ (fuel : Nat) (rel : RPath) (name : String) (node : FsNode) (p : RPath),
        p ∈ list_files fuel rel name node →
          ∃ q, p = rel ++ q ∧ ∀ d ∈ q.dropLast, ¬ d ∈ IGNORE_PATHS) := by
  refine ⟨?_, ?_, ?_⟩
  · intro ch nc hnc
    have := List.of_mem_filter hnc
    simpa using this
  · intro fuel rel name ch h
    cases fuel with
    | zero => rfl
    | succ f =>
      show (if IGNORE_PATHS.contains name then [] else _) = []
      exact if_pos (List.elem_iff.mpr h)
  · intro fuel
    induction fuel with
    | zero =>
      intro rel name node p hp
      cases node with
      | file d =>
        simp only [list_files, List.mem_singleton] at hp
        exact ⟨[], by simpa using hp, by simp⟩
      | dir ch => simp [list_files] at hp
    | succ f ih =>
      intro rel name node p hp
      cases node with
      | file d =>
        simp only [list_files, List.mem_singleton] at hp
        exact ⟨[], by simpa using hp, by simp⟩
      | dir ch =>
        by_cases hname : IGNORE_PATHS.contains name = true
        · have hnil : list_files (f + 1) rel name (.dir ch) = [] := by
            show (if IGNORE_PATHS.contains name then [] else _) = []
            exact if_pos hname
          rw [hnil] at hp
          exact absurd hp (by simp)
        · have hunf : list_files (f + 1) rel name (.dir ch)
              = ch.foldr (fun nc acc => list_files f (rel ++ [nc.1]) nc.1 nc.2 ++ acc) [] := by
            show (if IGNORE_PATHS.contains name then [] else _) = _
            exact if_neg hname
          rw [hunf] at hp
          rcases (mem_foldr_append _ p ch).mp hp with ⟨nc, hncch, hpnc⟩
          cases hsub : nc.2 with
          | file d =>
            rw [hsub] at hpnc
            simp only [list_files, List.mem_singleton] at hpnc
            exact ⟨[nc.1], by simpa using hpnc, by simp⟩
          | dir sub =>
            rw [hsub] at hpnc
            by_cases hin : IGNORE_PATHS.contains nc.1 = true
            · cases f with
              | zero => exact absurd hpnc (by simp [list_files])
              | succ g =>
                have hnil : list_files (g + 1) (rel ++ [nc.1]) nc.1 (.dir sub) = [] := by
                  show (if IGNORE_PATHS.contains nc.1 then [] else _) = []
                  exact if_pos hin
                rw [hnil] at hpnc
                exact absurd hpnc (by simp)
            · rcases ih (rel ++ [nc.1]) nc.1 (.dir sub) p hpnc with ⟨q, hq, hdirs⟩
              refine ⟨nc.1 :: q, by simpa using hq, ?_⟩
              intro d hd
              cases q with
              | nil => simp at hd
              | cons q0 qs =>
                rw [List.dropLast_cons_of_ne_nil (by simp)] at hd
                rcases List.mem_cons.mp hd with rfl | hd2
                · intro hmem
                  exact hin (List.elem_iff.mpr hmem)
                · exact hdirs d hd2

/-- Witness for the amended C10: in a workspace holding `target/x.txt`
and `src/a.txt`, the listing contains only `src/a.txt`, and the path it
returns passes through no ignored directory. -/
theorem list_skip_ignored_amended_witness :
    list_files 3 [] "repo"
        (.dir [("target", .dir [("x.txt", .file [104])]),
               ("src", .dir [("a.txt", .file [97])])]) = [["src", "a.txt"]] ∧
    (∃ q, (["src", "a.txt"] : RPath) = [] ++ q ∧ ∀ d ∈ q.dropLast, ¬ d ∈ IGNORE_PATHS) := by
  refine ⟨rfl, ?_⟩
  exact list_skip_ignored_amended.2.2 3 [] "repo"
    (.dir [("target", .dir [("x.txt", .file [104])]),
           ("src", .dir [("a.txt", .file [97])])])
    ["src", "a.txt"] (by rw [show list_files 3 [] "repo"
        (.dir [("target", .dir [("x.txt", .file [104])]),
               ("src", .dir [("a.txt", .file [97])])]) = [["src", "a.txt"]] from rfl]; simp)

end Rug.Workspace

namespace Rug

theorem alookup_ainsert_self {α β : Type} [DecidableEq α] (k : α) (v : β) :
    ∀ (l : List (α × β)), alookup k (ainsert k v l) = some v := by
  intro l
  induction l with
  | nil => simp [ainsert, alookup]
  | cons ab rest ih =>
    by_cases h : ab.1 = k
    · simp [ainsert, alookup, h]
    · simp [ainsert, alookup, h, ih]

theorem alookup_ainsert_ne {α β : Type} [DecidableEq α] {k k' : α} (v : β)
    (hne : k' ≠ k) : ∀ (l : List (α × β)), alookup k' (ainsert k v l) = alookup k' l := by
  intro l
  induction l with
  | nil => simp [ainsert, alookup, Ne.symm hne]
  | cons ab rest ih =>
    by_cases h : ab.1 = k
    · subst h
      simp [ainsert, alookup, Ne.symm hne]
    · simp only [ainsert, if_neg h]
      by_cases h2 : ab.1 = k'
      · simp [alookup, h2]
      · simp [alookup, h2, ih]

theorem aerase_sublist {α β : Type} [DecidableEq α] (k : α) :
    ∀ (l : List (α × β)), (aerase k l).Sublist l := by
  intro l
  induction l with
  | nil => simp [aerase]
  | cons ab rest ih =>
    by_cases h : ab.1 = k
    · simp only [aerase, if_pos h]
      exact List.sublist_cons_self _ _
    · simp only [aerase, if_neg h]
      exact List.Sublist.cons₂ _ ih

theorem alookup_eq_none_of_not_mem_keys {α β : Type} [DecidableEq α] {k : α} :
    ∀ {l : List (α × β)}, k ∉ l.map Prod.fst → alookup k l = none := by
  intro l
  induction l with
  | nil => intro _; rfl
  | cons ab rest ih =>
    intro h
    rw [List.map_cons] at h
    have h1 : ¬ ab.1 = k := by
      intro he
      apply h
      rw [he]
      exact List.mem_cons_self _ _
    simp only [alookup, if_neg h1]
    exact ih (fun hm => h (List.mem_cons_of_mem _ hm))

theorem alookup_aerase_self {α β : Type} [DecidableEq α] (k : α) :
    ∀ (l : List (α × β)), (l.map Prod.fst).Nodup → alookup k (aerase k l) = none := by
  intro l
  induction l with
  | nil => intro _; rfl
  | cons ab rest ih =>
    intro hnd
    rw [List.map_cons] at hnd
    rcases List.nodup_cons.mp hnd with ⟨hab, hrest⟩
    by_cases h : ab.1 = k
    · simp only [aerase, if_pos h]
      subst h
      exact alookup_eq_none_of_not_mem_keys hab
    · simp only [aerase, if_neg h, alookup, if_neg h]
      exact ih hrest

theorem alookup_aerase_ne {α β : Type} [DecidableEq α] {k k' : α}
    (hne : k' ≠ k) : ∀ (l : List (α × β)), alookup k' (aerase k l) = alookup k' l := by
  intro l
  induction l with
  | nil => rfl
  | cons ab rest ih =>
    by_cases h : ab.1 = k
    · subst h
      simp [aerase, alookup, Ne.symm hne, hne]
    · by_cases h2 : ab.1 = k'
      · simp [aerase, alookup, h, h2, hne]
      · simp [aerase, alookup, h, h2, ih]

theorem not_mem_keys_ainsert {α β : Type} [DecidableEq α] {a k : α} (v : β)
    (hne : a ≠ k) :
    ∀ {m : List (α × β)}, a ∉ m.map Prod.fst → a ∉ (ainsert k v m).map Prod.fst := by
  intro m
  induction m with
  | nil => intro _; simpa [ainsert] using hne
  | cons cd r ih =>
    intro hm
    rw [List.map_cons] at hm
    have h1 : a ≠ cd.1 := fun he => hm (List.mem_cons.mpr (Or.inl he))
    have h2 : a ∉ r.map Prod.fst := fun hc => hm (List.mem_cons.mpr (Or.inr hc))
    by_cases hcd : cd.1 = k
    · simp only [ainsert, if_pos hcd, List.map_cons]
      intro hc
      rcases List.mem_cons.mp hc with he | hc2
      · exact hne he
      · exact h2 hc2
    · simp only [ainsert, if_neg hcd, List.map_cons]
      intro hc
      rcases List.mem_cons.mp hc with he | hc2
      · exact h1 he
      · exact ih h2 hc2

theorem keys_ainsert {α β : Type} [DecidableEq α] (k : α) (v : β) :
    ∀ {l : List (α × β)}, (l.map Prod.fst).Nodup →
      ((ainsert k v l).map Prod.fst).Nodup := by
  intro l
  induction l with
  | nil => intro _; simp [ainsert]
  | cons ab rest ih =>
    intro hnd
    rw [List.map_cons] at hnd
    rcases List.nodup_cons.mp hnd with ⟨hab, hrest⟩
    by_cases h : ab.1 = k
    · simp only [ainsert, if_pos h, List.map_cons, List.nodup_cons]
      exact ⟨h ▸ hab, hrest⟩
    · simp only [ainsert, if_neg h, List.map_cons, List.nodup_cons]
      exact ⟨not_mem_keys_ainsert v h hab, ih hrest⟩

theorem keys_aerase {α β : Type} [DecidableEq α] (k : α) (l : List (α × β))
    (h : (l.map Prod.fst).Nodup) : ((aerase k l).map Prod.fst).Nodup :=
  List.Nodup.sublist (List.Sublist.map _ (aerase_sublist k l)) h

theorem mem_sinsert {α : Type} [DecidableEq α] (x q : α) (l : List α) :
    q ∈ sinsert x l ↔ q ∈ l ∨ q = x := by
  by_cases h : x ∈ l
  · simp only [sinsert, if_pos h]
    constructor
    · exact Or.inl
    · rintro (h1 | rfl)
      · exact h1
      · exact h
  · simp [sinsert, if_neg h]

theorem nodup_sinsert {α : Type} [DecidableEq α] (x : α) (l : List α)
    (h : l.Nodup) : (sinsert x l).Nodup := by
  by_cases hm : x ∈ l
  · simpa [sinsert, if_pos hm] using h
  · simp only [sinsert, if_neg hm]
    exact List.Nodup.append h (List.nodup_singleton x) (by simpa using hm)

end Rug

namespace Rug.IndexAdd

theorem strictAncestor_elim {a b : RPath} (h : strictAncestor a b) :
    a.length < b.length ∧ a = b.take a.length := by
  rw [strictAncestor, RPath.parent_dirs] at h
  rcases List.mem_map.mp h with ⟨i, hi, rfl⟩
  have hilt : i < b.length - 1 := List.mem_range.mp hi
  have hlen : (b.take (i + 1)).length = i + 1 := by
    rw [List.length_take]
    omega
  refine ⟨by omega, ?_⟩
  rw [hlen]

theorem strictAncestor_irrefl (p : RPath) : ¬ strictAncestor p p := by
  intro h
  exact absurd (strictAncestor_elim h).1 (lt_irrefl _)

theorem mem_entries_remove_entry {st : IndexState} (hnd : st.entries.Nodup)
    (p q : RPath) : q ∈ (remove_entry st p).entries ↔ q ∈ st.entries ∧ q ≠ p := by
  rw [remove_entry]
  by_cases hp : p ∈ st.entries
  · rw [if_pos hp]
    show q ∈ st.entries.erase p ↔ _
    rw [List.Nodup.mem_erase_iff hnd]
    tauto
  · rw [if_neg hp]
    constructor
    · intro h
      exact ⟨h, fun he => hp (he ▸ h)⟩
    · exact fun h => h.1

theorem entries_nodup_remove_entry {st : IndexState} (hnd : st.entries.Nodup)
    (p : RPath) : (remove_entry st p).entries.Nodup := by
  rw [remove_entry]
  by_cases hp : p ∈ st.entries
  · rw [if_pos hp]
    exact List.Nodup.erase _ hnd
  · rw [if_neg hp]
    exact hnd

theorem lookup_remove_parents_step (p : RPath)
    (ps : List (RPath × List RPath)) (hkeys : (ps.map Prod.fst).Nodup)
    (d0 dd : RPath) :
    (alookup dd (match alookup d0 ps with
        | some s =>
          let s' := s.erase p
          if s' = [] then aerase d0 ps else ainsert d0 s' ps
        | none => ps)).getD []
      = if dd = d0 then ((alookup d0 ps).getD []).erase p
        else (alookup dd ps).getD [] := by
  cases h0 : alookup d0 ps with
  | none =>
    by_cases hdd : dd = d0
    · subst hdd
      rw [if_pos rfl, h0]
      rfl
    · rw [if_neg hdd]
  | some s =>
    simp only []
    by_cases hnil : s.erase p = []
    · rw [if_pos hnil]
      by_cases hdd : dd = d0
      · subst hdd
        rw [if_pos rfl, alookup_aerase_self _ _ hkeys]
        simp [h0, hnil]
      · rw [if_neg hdd, alookup_aerase_ne hdd]
    · rw [if_neg hnil]
      by_cases hdd : dd = d0
      · subst hdd
        rw [if_pos rfl, alookup_ainsert_self]
        simp [h0]
      · rw [if_neg hdd, alookup_ainsert_ne _ hdd]

theorem remove_parents_step_keys (p : RPath)
    (ps : List (RPath × List RPath)) (hkeys : (ps.map Prod.fst).Nodup)
    (d0 : RPath) :
    ((match alookup d0 ps with
        | some s =>
          let s' := s.erase p
          if s' = [] then aerase d0 ps else ainsert d0 s' ps
        | none => ps).map Prod.fst).Nodup := by
  cases h0 : alookup d0 ps with
  | none => exact hkeys
  | some s =>
    simp only []
    by_cases hnil : s.erase p = []
    · rw [if_pos hnil]
      exact keys_aerase _ _ hkeys
    · rw [if_neg hnil]
      exact keys_ainsert _ _ hkeys

theorem mem_lookup_erase_fold (p q d : RPath) :
    ∀ (ds : List RPath) (ps : List (RPath × List RPath)),
      (∀ d', ((alookup d' ps).getD []).Nodup) →
      (ps.map Prod.fst).Nodup →
      (q ∈ (alookup d (ds.foldl (fun acc dirname =>
          match alookup dirname acc with
          | some s =>
            let s' := s.erase p
            if s' = [] then aerase dirname acc else ainsert dirname s' acc
          | none => acc) ps)).getD []
        ↔ q ∈ (alookup d ps).getD [] ∧ ¬ (q = p ∧ d ∈ ds)) := by
  intro ds
  induction ds with
  | nil => intro ps _ _; simp
  | cons d0 ds' ih =>
    intro ps hsets hkeys
    rw [List.foldl_cons]
    have hsets' : ∀ d', ((alookup d' (match alookup d0 ps with
        | some s =>
          let s' := s.erase p
          if s' = [] then aerase d0 ps else ainsert d0 s' ps
        | none => ps)).getD []).Nodup := by
      intro d'
      rw [lookup_remove_parents_step p ps hkeys d0 d']
      by_cases hdd : d' = d0
      · rw [if_pos hdd]
        exact List.Nodup.erase _ (hsets d0)
      · rw [if_neg hdd]
        exact hsets d'
    rw [ih _ hsets' (remove_parents_step_keys p ps hkeys d0),
      lookup_remove_parents_step p ps hkeys d0 d]
    by_cases hdd : d = d0
    · subst hdd
      rw [if_pos rfl, List.Nodup.mem_erase_iff (hsets d)]
      constructor
      · rintro ⟨⟨hne, hmem⟩, _⟩
        exact ⟨hmem, fun hc => hne hc.1⟩
      · rintro ⟨hmem, hnot⟩
        have hqp : q ≠ p := fun he => hnot ⟨he, List.mem_cons_self _ _⟩
        exact ⟨⟨hqp, hmem⟩, fun hc => hqp hc.1⟩
    · rw [if_neg hdd]
      constructor
      · rintro ⟨hmem, hnot⟩
        refine ⟨hmem, ?_⟩
        rintro ⟨rfl, hd⟩
        rcases List.mem_cons.mp hd with he | hd2
        · exact hdd he
        · exact hnot ⟨rfl, hd2⟩
      · rintro ⟨hmem, hnot⟩
        exact ⟨hmem, fun hc => hnot ⟨hc.1, List.mem_cons_of_mem _ hc.2⟩⟩

end Rug.IndexAdd

namespace Rug.IndexAdd

theorem lookup_remove_entry (p q d : RPath) (st : IndexState)
    (hsets : ∀ d', ((alookup d' st.parents).getD []).Nodup)
    (hkeys : (st.parents.map Prod.fst).Nodup) :
    q ∈ (alookup d (remove_entry st p).parents).getD []
      ↔ q ∈ (alookup d st.parents).getD []
        ∧ ¬ (q = p ∧ d ∈ p.parent_dirs ∧ p ∈ st.entries) := by
  rw [remove_entry]
  by_cases hp : p ∈ st.entries
  · rw [if_pos hp]
    show q ∈ (alookup d (p.parent_dirs.foldl _ st.parents)).getD [] ↔ _
    rw [mem_lookup_erase_fold p q d p.parent_dirs st.parents hsets hkeys]
    tauto
  · rw [if_neg hp]
    tauto

theorem remove_fold_parents_wf (p : RPath) (ds : List RPath) :
    ∀ (l : List (RPath × List RPath)), (l.map Prod.fst).Nodup →
      (∀ d', ((alookup d' l).getD []).Nodup) →
      (((ds.foldl (fun ps d' =>
          match alookup d' ps with
          | some s =>
            let s' := s.erase p
            if s' = [] then aerase d' ps else ainsert d' s' ps
          | none => ps) l).map Prod.fst).Nodup
        ∧ ∀ d', ((alookup d' (ds.foldl (fun ps d' =>
          match alookup d' ps with
          | some s =>
            let s' := s.erase p
            if s' = [] then aerase d' ps else ainsert d' s' ps
          | none => ps) l)).getD []).Nodup) := by
  induction ds with
  | nil => intro l hk hs; exact ⟨hk, hs⟩
  | cons d0 ds' ih =>
    intro l hk hs
    rw [List.foldl_cons]
    refine ih _ (remove_parents_step_keys p l hk d0) ?_
    intro d'
    rw [lookup_remove_parents_step p l hk d0 d']
    by_cases hdd : d' = d0
    · rw [if_pos hdd]; exact List.Nodup.erase _ (hs d0)
    · rw [if_neg hdd]; exact hs d'

theorem Inv_remove_entry {st : IndexState} (h : Inv st) (p : RPath) :
    Inv (remove_entry st p) := by
  obtain ⟨hents, hkeys, hsets, hexact, hnest⟩ := h
  have hparents : (remove_entry st p).parents
      = (if p ∈ st.entries then p.parent_dirs.foldl (fun ps d =>
          match alookup d ps with
          | some s =>
            let s' := s.erase p
            if s' = [] then aerase d ps else ainsert d s' ps
          | none => ps) st.parents else st.parents) := by
    rw [remove_entry]
    by_cases hp : p ∈ st.entries
    · rw [if_pos hp, if_pos hp]
    · rw [if_neg hp, if_neg hp]
  refine ⟨entries_nodup_remove_entry hents p, ?_, ?_, ?_, ?_⟩
  · rw [hparents]
    by_cases hp : p ∈ st.entries
    · rw [if_pos hp]
      exact (remove_fold_parents_wf p p.parent_dirs st.parents hkeys hsets).1
    · rw [if_neg hp]; exact hkeys
  · intro d
    rw [hparents]
    by_cases hp : p ∈ st.entries
    · rw [if_pos hp]
      exact (remove_fold_parents_wf p p.parent_dirs st.parents hkeys hsets).2 d
    · rw [if_neg hp]; exact hsets d
  · intro d q
    rw [lookup_remove_entry p q d st hsets hkeys,
      mem_entries_remove_entry hents p q, hexact d q]
    constructor
    · rintro ⟨⟨hq, hanc⟩, hnot⟩
      refine ⟨⟨hq, ?_⟩, hanc⟩
      intro he
      subst he
      exact hnot ⟨rfl, hanc, hq⟩
    · rintro ⟨⟨hq, hne⟩, hanc⟩
      exact ⟨⟨hq, hanc⟩, fun hc => hne hc.1⟩
  · intro a b ha hb
    rw [mem_entries_remove_entry hents] at ha hb
    exact hnest a b ha.1 hb.1

theorem mem_entries_remove_fold (ds : List RPath) :
    ∀ (st : IndexState), Inv st →
      (∀ q, q ∈ (ds.foldl remove_entry st).entries ↔ q ∈ st.entries ∧ q ∉ ds)
      ∧ Inv (ds.foldl remove_entry st) := by
  induction ds with
  | nil => intro st h; exact ⟨fun q => by simp, h⟩
  | cons d0 ds' ih =>
    intro st h
    rw [List.foldl_cons]
    obtain ⟨hmem, hinv⟩ := ih (remove_entry st d0) (Inv_remove_entry h d0)
    refine ⟨?_, hinv⟩
    intro q
    rw [hmem q, mem_entries_remove_entry h.1 d0 q]
    constructor
    · rintro ⟨⟨hq, hne⟩, hnot⟩
      refine ⟨hq, ?_⟩
      intro hc
      rcases List.mem_cons.mp hc with he | hc2
      · exact hne he
      · exact hnot hc2
    · rintro ⟨hq, hnot⟩
      exact ⟨⟨hq, fun he => hnot (he ▸ List.mem_cons_self _ _)⟩,
        fun hc => hnot (List.mem_cons_of_mem _ hc)⟩

end Rug.IndexAdd

namespace Rug.IndexAdd

theorem lookup_insert_parents_step (p : RPath)
    (ps : List (RPath × List RPath)) (d0 dd : RPath) :
    (alookup dd (match alookup d0 ps with
        | some s => ainsert d0 (sinsert p s) ps
        | none => ainsert d0 [p] ps)).getD []
      = if dd = d0 then sinsert p ((alookup d0 ps).getD [])
        else (alookup dd ps).getD [] := by
  cases h0 : alookup d0 ps with
  | none =>
    by_cases hdd : dd = d0
    · subst hdd
      rw [if_pos rfl, alookup_ainsert_self]
      simp [h0, sinsert]
    · rw [if_neg hdd, alookup_ainsert_ne _ hdd]
  | some s =>
    by_cases hdd : dd = d0
    · subst hdd
      rw [if_pos rfl, alookup_ainsert_self]
      simp [h0]
    · rw [if_neg hdd, alookup_ainsert_ne _ hdd]

theorem insert_parents_step_keys (p : RPath)
    (ps : List (RPath × List RPath)) (hkeys : (ps.map Prod.fst).Nodup)
    (d0 : RPath) :
    ((match alookup d0 ps with
        | some s => ainsert d0 (sinsert p s) ps
        | none => ainsert d0 [p] ps).map Prod.fst).Nodup := by
  cases alookup d0 ps with
  | none => exact keys_ainsert _ _ hkeys
  | some s => exact keys_ainsert _ _ hkeys

theorem mem_lookup_insert_fold (p q d : RPath) :
    ∀ (ds : List RPath) (ps : List (RPath × List RPath)),
      q ∈ (alookup d (ds.foldl (fun ps d' =>
          match alookup d' ps with
          | some s => ainsert d' (sinsert p s) ps
          | none => ainsert d' [p] ps) ps)).getD []
        ↔ q ∈ (alookup d ps).getD [] ∨ (q = p ∧ d ∈ ds) := by
  intro ds
  induction ds with
  | nil => intro ps; simp
  | cons d0 ds' ih =>
    intro ps
    rw [List.foldl_cons, ih, lookup_insert_parents_step p ps d0 d]
    by_cases hdd : d = d0
    · subst hdd
      rw [if_pos rfl, mem_sinsert]
      constructor
      · rintro ((hq | he) | hq2)
        · exact Or.inl hq
        · exact Or.inr ⟨he, List.mem_cons_self _ _⟩
        · exact Or.inr ⟨hq2.1, List.mem_cons_of_mem _ hq2.2⟩
      · rintro (hq | ⟨he, _⟩)
        · exact Or.inl (Or.inl hq)
        · exact Or.inl (Or.inr he)
    · rw [if_neg hdd]
      constructor
      · rintro (hq | hq2)
        · exact Or.inl hq
        · exact Or.inr ⟨hq2.1, List.mem_cons_of_mem _ hq2.2⟩
      · rintro (hq | ⟨he, hd⟩)
        · exact Or.inl hq
        · rcases List.mem_cons.mp hd with h1 | h2
          · exact absurd h1 hdd
          · exact Or.inr ⟨he, h2⟩

theorem insert_fold_parents_wf (p : RPath) (ds : List RPath) :
    ∀ (l : List (RPath × List RPath)), (l.map Prod.fst).Nodup →
      (∀ d', ((alookup d' l).getD []).Nodup) →
      (((ds.foldl (fun ps d' =>
          match alookup d' ps with
          | some s => ainsert d' (sinsert p s) ps
          | none => ainsert d' [p] ps) l).map Prod.fst).Nodup
        ∧ ∀ d', ((alookup d' (ds.foldl (fun ps d' =>
          match alookup d' ps with
          | some s => ainsert d' (sinsert p s) ps
          | none => ainsert d' [p] ps) l)).getD []).Nodup) := by
  induction ds with
  | nil => intro l hk hs; exact ⟨hk, hs⟩
  | cons d0 ds' ih =>
    intro l hk hs
    rw [List.foldl_cons]
    refine ih _ (insert_parents_step_keys p l hk d0) ?_
    intro d'
    rw [lookup_insert_parents_step p l d0 d']
    by_cases hdd : d' = d0
    · rw [if_pos hdd]; exact nodup_sinsert _ _ (hs d0)
    · rw [if_neg hdd]; exact hs d'

theorem mem_entries_store_entry (st : IndexState) (p q : RPath) :
    q ∈ (store_entry st p).entries ↔ q ∈ st.entries ∨ q = p := by
  show q ∈ (if p ∈ st.entries then st.entries else st.entries ++ [p]) ↔ _
  by_cases hp : p ∈ st.entries
  · rw [if_pos hp]
    constructor
    · exact Or.inl
    · rintro (hq | rfl)
      · exact hq
      · exact hp
  · rw [if_neg hp]
    simp

theorem Inv_add {st : IndexState} (h : Inv st) (p : RPath) : Inv (add st p) := by
  -- state after removing all parent-directory entries
  obtain ⟨hmem1, hinv1⟩ := mem_entries_remove_fold p.parent_dirs st h
  set s1 := p.parent_dirs.foldl remove_entry st with hs1
  -- the children recorded under p are exactly the entries below p
  have hchild : ∀ q, q ∈ (alookup p s1.parents).getD []
      ↔ q ∈ s1.entries ∧ strictAncestor p q := hinv1.2.2.2.1 p
  -- state after removing those children
  obtain ⟨hmem2, hinv2⟩ :=
    mem_entries_remove_fold ((alookup p s1.parents).getD []) s1 hinv1
  set s2 := ((alookup p s1.parents).getD []).foldl remove_entry s1 with hs2
  have hadd : add st p = store_entry s2 p := by
    rw [add, discard_conflicts]
  rw [hadd]
  obtain ⟨hents2, hkeys2, hsets2, hexact2, hnest2⟩ := hinv2
  have hparents3 : (store_entry s2 p).parents
      = p.parent_dirs.foldl (fun ps d =>
          match alookup d ps with
          | some s => ainsert d (sinsert p s) ps
          | none => ainsert d [p] ps) s2.parents := rfl
  refine ⟨?_, ?_, ?_, ?_, ?_⟩
  · show (if p ∈ s2.entries then s2.entries else s2.entries ++ [p]).Nodup
    by_cases hp : p ∈ s2.entries
    · rw [if_pos hp]; exact hents2
    · rw [if_neg hp]
      exact List.Nodup.append hents2 (List.nodup_singleton p) (by simpa using hp)
  · rw [hparents3]
    exact (insert_fold_parents_wf p p.parent_dirs s2.parents hkeys2 hsets2).1
  · intro d
    rw [hparents3]
    exact (insert_fold_parents_wf p p.parent_dirs s2.parents hkeys2 hsets2).2 d
  · intro d q
    rw [show (store_entry s2 p).parents = _ from hparents3,
      mem_lookup_insert_fold p q d p.parent_dirs s2.parents,
      mem_entries_store_entry s2 p q, hexact2 d q]
    constructor
    · rintro (⟨hq, hanc⟩ | ⟨rfl, hd⟩)
      · exact ⟨Or.inl hq, hanc⟩
      · exact ⟨Or.inr rfl, hd⟩
    · rintro ⟨hq | rfl, hanc⟩
      · exact Or.inl ⟨hq, hanc⟩
      · exact Or.inr ⟨rfl, hanc⟩
  · intro a b ha hb
    rw [mem_entries_store_entry s2 p a] at ha
    rw [mem_entries_store_entry s2 p b] at hb
    intro hanc
    rcases ha with ha | hae
    · rcases hb with hb | hbe
      · exact hnest2 a b ha hb hanc
      · -- an entry that is a strict ancestor of the new path was removed first
        have ha1 : a ∈ s1.entries := ((hmem2 a).mp ha).1
        have ha0 := (hmem1 a).mp ha1
        rw [hbe] at hanc
        exact ha0.2 hanc
    · rcases hb with hb | hbe
      · -- entries below the new path were removed via the parents map
        have hb1 : b ∈ s1.entries := ((hmem2 b).mp hb).1
        rw [hae] at hanc
        have hbc : b ∈ (alookup p s1.parents).getD [] := (hchild b).mpr ⟨hb1, hanc⟩
        exact ((hmem2 b).mp hb).2 hbc
      · rw [hae, hbe] at hanc
        exact strictAncestor_irrefl p hanc

theorem Inv_foldl_add (ops : List RPath) :
    ∀ (st : IndexState), Inv st → Inv (ops.foldl add st) := by
  induction ops with
  | nil => intro st h; exact h
  | cons p ops' ih =>
    intro st h
    rw [List.foldl_cons]
    exact ih _ (Inv_add h p)

/-- C4.  After any sequence of `Index::add` calls starting from a
well-formed index (the empty index, or any index this code wrote), no
entry path is a strict ancestor directory of another entry path. -/
theorem index_add_no_nesting (st : IndexState) (h : Inv st) (ops : List RPath) :
    noNesting (ops.foldl add st) :=
  (Inv_foldl_add ops st h).2.2.2.2

/-- Witness for C4: starting from the empty index, adding `a/b`, then
`a/b/c`, then `a` leaves no nested pair of entry paths. -/
theorem index_add_no_nesting_witness :
    Inv emptyIndex
    ∧ noNesting ([["a", "b"], ["a", "b", "c"], ["a"]].foldl add emptyIndex) := by
  have hinv : Inv emptyIndex := by
    refine ⟨List.nodup_nil, by simp [emptyIndex], ?_, ?_, ?_⟩
    · intro d; simp [emptyIndex, alookup]
    · intro d q; simp [emptyIndex, alookup]
    · intro a b ha; simp [emptyIndex] at ha
  exact ⟨hinv, index_add_no_nesting emptyIndex hinv [["a", "b"], ["a", "b", "c"], ["a"]]⟩

end Rug.IndexAdd

namespace Rug.Index

/-- `from_be_bytes` undoes `to_be_bytes` on a 32-bit value. -/
theorem beVal_u32be (n : Nat) (h : n < 4294967296) : beVal (u32be n) = n := by
  simp [beVal, u32be]
  omega

/-- `from_be_bytes` undoes `to_be_bytes` on a 16-bit value. -/
theorem beVal_u16be (n : Nat) (h : n < 65536) : beVal (u16be n) = n := by
  simp [beVal, u16be]
  omega

theorem intAsU32_lt (i : Int) : intAsU32 i < 4294967296 := by
  unfold intAsU32
  have h1 : i.emod 4294967296 < 4294967296 :=
    Int.emod_lt_of_pos i (by norm_num)
  omega

theorem natAsU32_lt (n : Nat) : natAsU32 n < 4294967296 := by
  unfold natAsU32
  omega

/-- `as u32` is the identity on an `i64` already in 32-bit range. -/
theorem intAsU32_of_range {i : Int} (h0 : 0 ≤ i) (h1 : i < 4294967296) :
    Int.ofNat (intAsU32 i) = i := by
  unfold intAsU32
  have h2 : i.emod 4294967296 = i := Int.emod_eq_of_lt h0 h1
  rw [h2]
  exact Int.toNat_of_nonneg h0

theorem natAsU32_of_lt {n : Nat} (h : n < 4294967296) : natAsU32 n = n :=
  Nat.mod_eq_of_lt h

theorem keyLt_irrefl : ∀ a, keyLt a a = false
  | [] => rfl
  | x :: xs => by
    rw [keyLt]
    simp [keyLt_irrefl xs]

theorem keyLt_asymm : ∀ a b, keyLt a b = true → keyLt b a = false
  | [], [] => by simp [keyLt]
  | [], _ :: _ => fun _ => rfl
  | _ :: _, [] => by simp [keyLt]
  | a :: as, b :: bs => by
    intro h
    rw [keyLt] at h
    rw [keyLt]
    by_cases hab : a < b
    · have hba : ¬ b < a := by omega
      rw [if_neg hba, if_pos hab]
    · by_cases hba : b < a
      · rw [if_neg hab, if_pos hba] at h
        exact absurd h (by simp)
      · rw [if_neg hab, if_neg hba] at h
        rw [if_neg hba, if_neg hab]
        exact keyLt_asymm as bs h

/-- Inserting an entry greater than every key appends it at the end. -/
theorem store_entry_append (e : Entry) : ∀ (m : List Entry),
    (∀ x ∈ m, keyLt x.path e.path = true) → store_entry e m = m ++ [e]
  | [] => fun _ => rfl
  | x :: xs => fun h => by
    have hx := h x (List.mem_cons_self x xs)
    have h1 : keyLt e.path x.path = false := keyLt_asymm _ _ hx
    have h2 : e.path ≠ x.path := by
      intro he
      rw [he, keyLt_irrefl] at hx
      exact absurd hx (by simp)
    rw [store_entry, if_neg (by simp [h1]), if_neg h2,
        store_entry_append e xs (fun y hy => h y (List.mem_cons_of_mem x hy))]
    simp

/-- Folding `store_entry` over a sorted entry list reproduces the list. -/
theorem foldl_store_sorted (es : List Entry) : ∀ (acc : List Entry),
    (∀ x ∈ acc, ∀ y ∈ es, keyLt x.path y.path = true) →
    es.Pairwise (fun a b => keyLt a.path b.path = true) →
    es.foldl (fun m e => store_entry e m) acc = acc ++ es := by
  induction es with
  | nil => intro acc _ _; simp
  | cons e es ih =>
    intro acc hacc hp
    rw [List.pairwise_cons] at hp
    rw [List.foldl_cons,
        store_entry_append e acc (fun x hx => hacc x hx e (List.mem_cons_self e es))]
    have hacc' : ∀ x ∈ acc ++ [e], ∀ y ∈ es, keyLt x.path y.path = true := by
      intro x hx y hy
      rcases List.mem_append.mp hx with hxa | hxe
      · exact hacc x hxa y (List.mem_cons_of_mem e hy)
      · have hxe' : x = e := by simpa using hxe
        rw [hxe']
        exact hp.1 y hy
    rw [ih (acc ++ [e]) hacc' hp.2]
    simp

theorem meta_flatMap_length (e : Entry) :
    ((Entry.meta_vals e).flatMap u32be).length = 40 := rfl

/-- `to_bytes` decomposed at the path segment: everything after the
62-byte fixed prefix is the path, its NUL, and the zero padding. -/
theorem to_bytes_split (e : Entry) :
    ∃ n : Nat, Entry.to_bytes e
      = (Entry.meta_vals e).flatMap u32be
        ++ (decode_hex_d e.oid ++ (u16be (e.flags % 65536)
            ++ (e.path ++ (0 :: List.replicate n 0)))) := by
  refine ⟨(8 - ((Entry.meta_vals e).flatMap u32be ++ decode_hex_d e.oid
      ++ u16be (e.flags % 65536) ++ e.path ++ [0]).length % 8) % 8, ?_⟩
  rw [Entry.to_bytes, pad8]
  simp [List.append_assoc]

/-- Extracting the `i`-th 4-byte group of a `u32` serialization. -/
theorem flatMap_u32be_extract (vals : List Nat) : ∀ (i v : Nat) (rest : List Nat),
    vals[i]? = some v →
    ((vals.flatMap u32be ++ rest).drop (4 * i)).take 4 = u32be v := by
  induction vals with
  | nil => intro i v rest h; simp at h
  | cons w ws ih =>
    intro i v rest h
    cases i with
    | zero =>
      have hv : w = v := by simpa using h
      rw [List.flatMap_cons, List.append_assoc, Nat.mul_zero, List.drop_zero, ← hv]
      exact List.take_left' rfl
    | succ j =>
      have h' : ws[j]? = some v := by simpa using h
      rw [List.flatMap_cons, List.append_assoc,
          show 4 * (j + 1) = (u32be w).length + 4 * j from by simp [u32be]; omega,
          List.drop_append]
      exact ih j v rest h'

/-- `takeWhile` over a satisfying block followed by a failing element. -/
theorem takeWhile_append_cons {α : Type} (p : α → Bool) (x : α) (hx : p x = false) :
    ∀ (a b : List α), (∀ y ∈ a, p y = true) →
    (a ++ x :: b).takeWhile p = a := by
  intro a
  induction a with
  | nil => intro b _; simp [List.takeWhile_cons, hx]
  | cons z zs ih =>
    intro b ha
    rw [List.cons_append, List.takeWhile_cons]
    simp [ha z (List.mem_cons_self z zs),
      ih b (fun y hy => ha y (List.mem_cons_of_mem z hy))]

/-- `Entry::parse` recovers an entry from its own `to_bytes` output when
the entry's fields fit their on-disk widths. -/
theorem parse_to_bytes (e : Entry) (h : EntryWF e) :
    Entry.parse (Entry.to_bytes e) = some e := by
  obtain ⟨hc0, hc1, hcn0, hcn1, hm0, hm1, hmn0, hmn1, hdev, hino, hmode, huid, hgid,
    hsize, hflags, hoid, henc, hpath, hutf⟩ := h
  obtain ⟨n, hsplit⟩ := to_bytes_split e
  have hB : (decode_hex_d e.oid).length = 20 := hoid
  have h40 : ((Entry.meta_vals e).flatMap u32be).length = 40 := meta_flatMap_length e
  have h60 : ((Entry.meta_vals e).flatMap u32be ++ decode_hex_d e.oid).length = 60 := by
    simp [h40, hB]
  have h62 : (((Entry.meta_vals e).flatMap u32be ++ decode_hex_d e.oid)
      ++ u16be (e.flags % 65536)).length = 62 := by
    simp [h40, hB, u16be]
  have hdrop40 : ((Entry.to_bytes e).drop 40).take 20 = decode_hex_d e.oid := by
    rw [hsplit, List.drop_left' h40, List.take_left' hB]
  have hdrop60 : ((Entry.to_bytes e).drop 60).take 2 = u16be (e.flags % 65536) := by
    rw [hsplit, ← List.append_assoc, List.drop_left' h60,
        List.take_left' (show (u16be (e.flags % 65536)).length = 2 from rfl)]
  have hdrop62 : (Entry.to_bytes e).drop 62 = e.path ++ (0 :: List.replicate n 0) := by
    rw [hsplit, ← List.append_assoc, ← List.append_assoc, List.drop_left' h62]
  have htw : ((Entry.to_bytes e).drop 62).takeWhile (fun b => b ≠ 0) = e.path := by
    rw [hdrop62]
    exact takeWhile_append_cons _ 0 (by simp) e.path (List.replicate n 0)
      (fun y hy => by simpa using hpath y hy)
  have hfield : ∀ i v : Nat, (Entry.meta_vals e)[i]? = some v → v < 4294967296 →
      beVal (((Entry.to_bytes e).drop (4 * i)).take 4) = v := by
    intro i v hiv hlt
    rw [hsplit, flatMap_u32be_extract (Entry.meta_vals e) i v _ hiv]
    exact beVal_u32be v hlt
  have henc' : encode_hex (decode_hex_d e.oid) = e.oid := henc
  simp only [Entry.parse]
  rw [htw, if_pos hutf]
  rw [hfield 0 (intAsU32 e.ctime) rfl (intAsU32_lt _),
      hfield 1 (intAsU32 e.ctime_nsec) rfl (intAsU32_lt _),
      hfield 2 (intAsU32 e.mtime) rfl (intAsU32_lt _),
      hfield 3 (intAsU32 e.mtime_nsec) rfl (intAsU32_lt _),
      hfield 4 (natAsU32 e.dev) rfl (natAsU32_lt _),
      hfield 5 (natAsU32 e.ino) rfl (natAsU32_lt _),
      hfield 6 (natAsU32 e.mode) rfl (natAsU32_lt _),
      hfield 7 (natAsU32 e.uid) rfl (natAsU32_lt _),
      hfield 8 (natAsU32 e.gid) rfl (natAsU32_lt _),
      hfield 9 (natAsU32 e.size) rfl (natAsU32_lt _)]
  rw [intAsU32_of_range hc0 hc1, intAsU32_of_range hcn0 hcn1,
      intAsU32_of_range hm0 hm1, intAsU32_of_range hmn0 hmn1,
      natAsU32_of_lt hdev, natAsU32_of_lt hino, natAsU32_of_lt hmode,
      natAsU32_of_lt huid, natAsU32_of_lt hgid, natAsU32_of_lt hsize]
  rw [hdrop40, henc', hdrop60,
      beVal_u16be (e.flags % 65536) (Nat.mod_lt _ (by norm_num)),
      Nat.mod_eq_of_lt hflags]

/-- `to_bytes` output length is a multiple of 8 (the padding loop). -/
theorem to_bytes_length_mod (e : Entry) : (Entry.to_bytes e).length % 8 = 0 := by
  rw [Entry.to_bytes, pad8, List.length_append, List.length_replicate]
  omega

/-- `to_bytes` output length in terms of the path length. -/
theorem to_bytes_length_eq (e : Entry) (hB : (decode_hex_d e.oid).length = 20) :
    (Entry.to_bytes e).length
      = 63 + e.path.length + (8 - (63 + e.path.length) % 8) % 8 := by
  have hl : ((Entry.meta_vals e).flatMap u32be ++ decode_hex_d e.oid
      ++ u16be (e.flags % 65536) ++ e.path ++ [0]).length = 63 + e.path.length := by
    simp [meta_flatMap_length e, hB, u16be]
    omega
  rw [Entry.to_bytes, pad8, List.length_append, List.length_replicate, hl]

theorem getLast?_cons_replicate_zero :
    ∀ n : Nat, (0 :: List.replicate n (0 : Nat)).getLast? = some 0
  | 0 => rfl
  | n + 1 => by
    rw [List.replicate_succ, List.getLast?_cons_cons]
    exact getLast?_cons_replicate_zero n

/-- The last byte `to_bytes` writes is always a NUL. -/
theorem to_bytes_getLast (e : Entry) : (Entry.to_bytes e).getLast? = some 0 := by
  obtain ⟨n, hsplit⟩ := to_bytes_split e
  rw [hsplit]
  simp [List.getLast?_append, getLast?_cons_replicate_zero n]

/-- No 8-aligned proper prefix of at least 64 bytes of `to_bytes` ends in
a NUL: position `m-1` always falls inside the NUL-free path. -/
theorem to_bytes_take_getLast (e : Entry)
    (hB : (decode_hex_d e.oid).length = 20)
    (hpath : ∀ b ∈ e.path, b ≠ 0)
    (m : Nat) (hm64 : 64 ≤ m) (hm8 : m % 8 = 0)
    (hmlt : m < (Entry.to_bytes e).length) :
    ((Entry.to_bytes e).take m).getLast? ≠ some 0 := by
  obtain ⟨n, hsplit⟩ := to_bytes_split e
  have hNe := to_bytes_length_eq e hB
  have hN8 := to_bytes_length_mod e
  have hre : Entry.to_bytes e
      = ((Entry.meta_vals e).flatMap u32be ++ decode_hex_d e.oid
          ++ u16be (e.flags % 65536))
        ++ (e.path ++ (0 :: List.replicate n 0)) := by
    rw [hsplit]
    simp [List.append_assoc]
  have hlen62 : ((Entry.meta_vals e).flatMap u32be ++ decode_hex_d e.oid
      ++ u16be (e.flags % 65536)).length = 62 := by
    simp [meta_flatMap_length e, hB, u16be]
  have hmle : m ≤ 62 + e.path.length := by omega
  have hmlen : m ≤ (Entry.to_bytes e).length := le_of_lt hmlt
  have htake : ((Entry.to_bytes e).take m).getLast? = (Entry.to_bytes e)[m - 1]? := by
    rw [List.getLast?_eq_getElem?, List.length_take, min_eq_left hmlen,
        List.getElem?_take, if_pos (by omega)]
  rw [htake, hre,
      List.getElem?_append_right (by rw [hlen62]; omega), hlen62]
  have hlt : m - 1 - 62 < e.path.length := by omega
  rw [List.getElem?_append_left hlt, List.getElem?_eq_getElem hlt]
  intro hc
  exact hpath _ (List.getElem_mem hlt) (Option.some.inj hc)

/-- The 8-byte extension loop consumes exactly up to the trailing NUL:
from any 8-aligned point of `L` past the first 64 bytes it reads the rest
of `L` and leaves `rest` untouched. -/
theorem read_entry_ext_spec (L : List Nat)
    (hlast : L.getLast? = some 0)
    (hmid : ∀ m, 64 ≤ m → m % 8 = 0 → m < L.length →
      (L.take m).getLast? ≠ some 0)
    (hN8 : L.length % 8 = 0) :
    ∀ (fuel m : Nat) (rest : List Nat), 64 ≤ m → m % 8 = 0 → m ≤ L.length →
      L.length - m < fuel →
      read_entry_ext (L.take m) (L.drop m ++ rest) fuel = some (L, rest) := by
  intro fuel
  induction fuel with
  | zero => intro m rest _ _ _ hf; omega
  | succ f ih =>
    intro m rest hm64 hm8 hmle hf
    by_cases hmN : m = L.length
    · subst hmN
      rw [List.take_length, List.drop_length, List.nil_append, read_entry_ext,
          if_pos hlast]
    · have hmlt : m < L.length := Nat.lt_of_le_of_ne hmle hmN
      have hstep : 8 ≤ L.length - m := by omega
      have hld : (L.drop m).length = L.length - m := List.length_drop _ _
      rw [read_entry_ext, if_neg (hmid m hm64 hm8 hmlt),
          if_pos (show 8 ≤ (L.drop m ++ rest).length by
            rw [List.length_append, hld]; omega)]
      have ht8 : (L.drop m ++ rest).take 8 = (L.drop m).take 8 := by
        rw [List.take_append_eq_append_take, hld,
            show 8 - (L.length - m) = 0 from by omega, List.take_zero,
            List.append_nil]
      have hd8 : (L.drop m ++ rest).drop 8 = L.drop (m + 8) ++ rest := by
        rw [List.drop_append_eq_append_drop, hld,
            show 8 - (L.length - m) = 0 from by omega, List.drop_zero,
            List.drop_drop]
      have hacc : L.take m ++ (L.drop m).take 8 = L.take (m + 8) :=
        (List.take_add L m 8).symm
      rw [ht8, hd8, hacc]
      exact ih (m + 8) rest (by omega) (by omega) (by omega) (by omega)

/-- `read_entry` consumes exactly one serialized entry from the stream. -/
theorem read_entry_to_bytes (e : Entry)
    (hB : (decode_hex_d e.oid).length = 20)
    (hpath : ∀ b ∈ e.path, b ≠ 0)
    (rest : List Nat) :
    read_entry (Entry.to_bytes e ++ rest) = some (Entry.to_bytes e, rest) := by
  have hN8 := to_bytes_length_mod e
  have hNe := to_bytes_length_eq e hB
  have h64 : 64 ≤ (Entry.to_bytes e).length := by omega
  rw [read_entry,
      if_pos (show 64 ≤ (Entry.to_bytes e ++ rest).length by
        rw [List.length_append]; omega)]
  have ht : (Entry.to_bytes e ++ rest).take 64 = (Entry.to_bytes e).take 64 := by
    rw [List.take_append_eq_append_take,
        show 64 - (Entry.to_bytes e).length = 0 from by omega, List.take_zero,
        List.append_nil]
  have hd : (Entry.to_bytes e ++ rest).drop 64
      = (Entry.to_bytes e).drop 64 ++ rest := by
    rw [List.drop_append_eq_append_drop,
        show 64 - (Entry.to_bytes e).length = 0 from by omega, List.drop_zero]
  rw [ht, hd]
  exact read_entry_ext_spec (Entry.to_bytes e) (to_bytes_getLast e)
    (fun m a b c => to_bytes_take_getLast e hB hpath m a b c) hN8
    ((Entry.to_bytes e ++ rest).length + 1) 64 rest (le_refl 64) (by omega) h64
    (by rw [List.length_append]; omega)

theorem EntryWF.oid_len {e : Entry} (h : EntryWF e) :
    (decode_hex_d e.oid).length = 20 := by
  obtain ⟨_, _, _, _, _, _, _, _, _, _, _, _, _, _, _, h20, _, _, _⟩ := h
  exact h20

theorem EntryWF.path_nz {e : Entry} (h : EntryWF e) : ∀ b ∈ e.path, b ≠ 0 := by
  obtain ⟨_, _, _, _, _, _, _, _, _, _, _, _, _, _, _, _, _, hp, _⟩ := h
  exact hp

/-- The entry-reading loop of `load` inverts the serialization of a list
of well-formed entries, reporting exactly their bytes as consumed. -/
theorem read_entries_flatMap : ∀ (es : List Entry), (∀ x ∈ es, EntryWF x) →
    ∀ rest : List Nat,
      read_entries es.length (es.flatMap Entry.to_bytes ++ rest)
        = some (es, es.flatMap Entry.to_bytes, rest) := by
  intro es
  induction es with
  | nil => intro _ rest; simp [read_entries]
  | cons e es ih =>
    intro hwf rest
    have hwfe := hwf e (List.mem_cons_self e es)
    rw [List.length_cons, List.flatMap_cons, List.append_assoc]
    simp only [read_entries,
      read_entry_to_bytes e (EntryWF.oid_len hwfe) (EntryWF.path_nz hwfe)
        (es.flatMap Entry.to_bytes ++ rest),
      parse_to_bytes e hwfe,
      ih (fun x hx => hwf x (List.mem_cons_of_mem e hx)) rest]

/-- Splitting a list at 20 bytes from its end. -/
theorem append_trailer {α : Type} (a b : List α) (h : b.length = 20) :
    (a ++ b).drop ((a ++ b).length - 20) = b
    ∧ (a ++ b).take ((a ++ b).length - 20) = a := by
  have hl : (a ++ b).length - 20 = a.length := by
    rw [List.length_append]; omega
  rw [hl, List.drop_left, List.take_left]
  exact ⟨rfl, rfl⟩

/-- `Index::load` inverts `write_updates` up to entry order. -/
theorem load_write (sha1 : List Nat → List Nat)
    (hsha : ∀ b, (sha1 b).length = 20)
    (entries : List Entry) (hwf : ∀ x ∈ entries, EntryWF x)
    (hcount : entries.length < 4294967296) :
    load sha1 (write_updates sha1 entries) = some entries := by
  have key : ∀ S : List Nat, S.length = 20 →
      S = sha1 ([68, 73, 82, 67] ++ u32be 2 ++ u32be (natAsU32 entries.length)
        ++ entries.flatMap Entry.to_bytes) →
      load sha1 ([68, 73, 82, 67] ++ u32be 2 ++ u32be (natAsU32 entries.length)
        ++ entries.flatMap Entry.to_bytes ++ S) = some entries := by
    intro S hS20 hSeq
    have hH12 : ([68, 73, 82, 67] ++ u32be 2
        ++ u32be (natAsU32 entries.length)).length = 12 := rfl
    have hlen : 12 ≤ ([68, 73, 82, 67] ++ u32be 2 ++ u32be (natAsU32 entries.length)
        ++ entries.flatMap Entry.to_bytes ++ S).length := by
      simp only [List.length_append, hH12]
      omega
    rw [load, if_pos ⟨hlen, rfl, rfl⟩]
    have hdrop8 : ([68, 73, 82, 67] ++ u32be 2 ++ u32be (natAsU32 entries.length)
        ++ entries.flatMap Entry.to_bytes ++ S).drop 8
        = u32be (natAsU32 entries.length) ++ (entries.flatMap Entry.to_bytes ++ S) := by
      rw [List.append_assoc ([68, 73, 82, 67] ++ u32be 2
            ++ u32be (natAsU32 entries.length)) (entries.flatMap Entry.to_bytes) S,
          List.append_assoc ([68, 73, 82, 67] ++ u32be 2)
            (u32be (natAsU32 entries.length)) (entries.flatMap Entry.to_bytes ++ S),
          List.drop_left' (show ([68, 73, 82, 67] ++ u32be 2).length = 8 from rfl)]
    have hdrop12 : ([68, 73, 82, 67] ++ u32be 2 ++ u32be (natAsU32 entries.length)
        ++ entries.flatMap Entry.to_bytes ++ S).drop 12
        = entries.flatMap Entry.to_bytes ++ S := by
      rw [List.append_assoc ([68, 73, 82, 67] ++ u32be 2
            ++ u32be (natAsU32 entries.length)) (entries.flatMap Entry.to_bytes) S,
          List.drop_left' hH12]
    have htake12 : ([68, 73, 82, 67] ++ u32be 2 ++ u32be (natAsU32 entries.length)
        ++ entries.flatMap Entry.to_bytes ++ S).take 12
        = [68, 73, 82, 67] ++ u32be 2 ++ u32be (natAsU32 entries.length) := by
      rw [List.append_assoc ([68, 73, 82, 67] ++ u32be 2
            ++ u32be (natAsU32 entries.length)) (entries.flatMap Entry.to_bytes) S,
          List.take_left' hH12]
    have hcnt : beVal ((([68, 73, 82, 67] ++ u32be 2 ++ u32be (natAsU32 entries.length)
        ++ entries.flatMap Entry.to_bytes ++ S).drop 8).take 4) = entries.length := by
      rw [hdrop8,
          List.take_left' (show (u32be (natAsU32 entries.length)).length = 4 from rfl),
          beVal_u32be _ (natAsU32_lt _), natAsU32_of_lt hcount]
    simp only [hcnt, hdrop12, read_entries_flatMap entries hwf S]
    rw [htake12, List.take_of_length_le hS20.le, if_pos ⟨hS20.ge, hSeq⟩]
  exact key _ (hsha _) rfl

/-- C6 (amended).  For every index whose entries are well formed — the
64-bit ctime/mtime/dev/ino/uid/gid/size values fit 32 bits, flags fit 16
bits, the oid is a normalized 40-digit hex string, and the path is
non-NUL valid UTF-8 — parsing the serialized index yields the same
entries, and the serialized file's trailing 20 bytes equal the SHA-1
digest of all preceding bytes.  (The unamended claim, with arbitrary
64-bit field values, is refuted by the truncation counterexample.) -/
theorem index_roundtrip_amended (sha1 : List Nat → List Nat)
    (hsha : ∀ b, (sha1 b).length = 20)
    (entries : List Entry)
    (hwf : ∀ x ∈ entries, EntryWF x)
    (hsorted : entries.Pairwise (fun a b => keyLt a.path b.path = true))
    (hcount : entries.length < 4294967296) :
    load_index sha1 (write_updates sha1 entries) = some entries
    ∧ (write_updates sha1 entries).drop ((write_updates sha1 entries).length - 20)
      = sha1 ((write_updates sha1 entries).take
          ((write_updates sha1 entries).length - 20)) := by
  constructor
  · rw [load_index, load_write sha1 hsha entries hwf hcount]
    show some (entries.foldl (fun m e => store_entry e m) []) = some entries
    rw [foldl_store_sorted entries []
        (fun x hx => absurd hx (List.not_mem_nil x)) hsorted,
      List.nil_append]
  · have hF : write_updates sha1 entries
        = ([68, 73, 82, 67] ++ u32be 2 ++ u32be (natAsU32 entries.length)
            ++ entries.flatMap Entry.to_bytes)
          ++ sha1 ([68, 73, 82, 67] ++ u32be 2 ++ u32be (natAsU32 entries.length)
            ++ entries.flatMap Entry.to_bytes) := rfl
    have h2 := append_trailer
      ([68, 73, 82, 67] ++ u32be 2 ++ u32be (natAsU32 entries.length)
        ++ entries.flatMap Entry.to_bytes)
      (sha1 ([68, 73, 82, 67] ++ u32be 2 ++ u32be (natAsU32 entries.length)
        ++ entries.flatMap Entry.to_bytes))
      (hsha _)
    rw [hF, h2.1, h2.2]

set_option maxRecDepth 8192 in
/-- Witness for the amended C6 round-trip at a concrete one-entry index,
with the digest function held constant. -/
theorem index_roundtrip_amended_witness :
    EntryWF ⟨1, 0, 0, 0, 0, 0, 0, 0, 0, 1, 33188,
      "aaaaaaaaaaaaaaaaaaaaaaaaaaaaaaaaaaaaaaaa", [97]⟩
    ∧ load_index (fun _ => List.replicate 20 0)
        (write_updates (fun _ => List.replicate 20 0)
          [⟨1, 0, 0, 0, 0, 0, 0, 0, 0, 1, 33188,
            "aaaaaaaaaaaaaaaaaaaaaaaaaaaaaaaaaaaaaaaa", [97]⟩])
      = some [⟨1, 0, 0, 0, 0, 0, 0, 0, 0, 1, 33188,
            "aaaaaaaaaaaaaaaaaaaaaaaaaaaaaaaaaaaaaaaa", [97]⟩] :=
  ⟨by decide,
   (index_roundtrip_amended (fun _ => List.replicate 20 0) (fun _ => rfl)
      [⟨1, 0, 0, 0, 0, 0, 0, 0, 0, 1, 33188,
        "aaaaaaaaaaaaaaaaaaaaaaaaaaaaaaaaaaaaaaaa", [97]⟩]
      (by decide) (by decide) (by decide)).1⟩

set_option maxRecDepth 8192 in
/-- C6 counterexample.  An index whose single entry carries
`ctime = 2^32` (representable in the in-memory `i64`): serialization
truncates it with `as u32`, so parsing the written file yields `ctime = 0`
-- the round-trip loses 64-bit field values, against the claim. -/
theorem load_write_truncates_64bit :
    load_index (fun _ => List.replicate 20 0)
        (write_updates (fun _ => List.replicate 20 0)
          [⟨4294967296, 0, 0, 0, 0, 0, 0, 0, 0, 1, 33188,
            "aaaaaaaaaaaaaaaaaaaaaaaaaaaaaaaaaaaaaaaa", [97]⟩])
      = some [⟨0, 0, 0, 0, 0, 0, 0, 0, 0, 1, 33188,
            "aaaaaaaaaaaaaaaaaaaaaaaaaaaaaaaaaaaaaaaa", [97]⟩]
    ∧ (⟨0, 0, 0, 0, 0, 0, 0, 0, 0, 1, 33188,
            "aaaaaaaaaaaaaaaaaaaaaaaaaaaaaaaaaaaaaaaa", [97]⟩ : Entry)
      ≠ ⟨4294967296, 0, 0, 0, 0, 0, 0, 0, 0, 1, 33188,
            "aaaaaaaaaaaaaaaaaaaaaaaaaaaaaaaaaaaaaaaa", [97]⟩ := by
  exact ⟨by decide, by decide⟩

end Rug.Index
